import Mathlib

/-
Verification development for the AirComix server's virtual content resolver.

The Python sources are shallowly embedded:
  * a Python `str` is modelled as `List Char` (`PyStr`); Python operates on
    sequences of Unicode code points, as does `List Char`;
  * a Python `bytes` value is modelled as `List (Fin 256)`;
  * a filesystem path handed to `pathlib` is modelled as a list of path
    segments (`List PyStr`);
  * fallible operations return `Except`/`Option`; a Python `try/except`
    becomes a `match` on the inner result;
  * the real filesystem, the archive containers and the external codec
    libraries are oracles passed in as explicit function parameters.

The host platform is POSIX (the server is deployed through gunicorn on
Linux), so `os.sep = '/'` and `os.path.normpath` is `posixpath.normpath`.
-/

abbrev PyStr := List Char

abbrev Seg := PyStr

instance {ε α : Type} [DecidableEq ε] [DecidableEq α] : DecidableEq (Except ε α) := fun a b =>
  match a, b with
  | .ok x, .ok y =>
    if h : x = y then isTrue (by rw [h]) else isFalse (by intro hc; cases hc; exact h rfl)
  | .ok _, .error _ => isFalse (by intro hc; cases hc)
  | .error _, .ok _ => isFalse (by intro hc; cases hc)
  | .error x, .error y =>
    if h : x = y then isTrue (by rw [h]) else isFalse (by intro hc; cases hc; exact h rfl)

/-- The set of characters stripped by Python's `str.strip()` with no
arguments: every character for which `str.isspace()` holds. -/
def pyIsSpace (c : Char) : Bool :=
  let n := c.toNat
  (9 ≤ n && n ≤ 13) || n == 32 || (28 ≤ n && n ≤ 31) || n == 0x85 || n == 0xa0 ||
    n == 0x1680 || (0x2000 ≤ n && n ≤ 0x200a) || n == 0x2028 || n == 0x2029 ||
    n == 0x202f || n == 0x205f || n == 0x3000

/-- Drop matching characters from the tail of a list (used to model the
right-hand half of Python's `strip`/`rstrip`). -/
def dropTrail (f : Char → Bool) (l : PyStr) : PyStr :=
  (l.reverse.dropWhile f).reverse

/-- Python `str.strip()`: removes leading and trailing whitespace. -/
def pyStrip (l : PyStr) : PyStr :=
  dropTrail pyIsSpace (l.dropWhile pyIsSpace)

/-- One pass of Python `str.replace("//", "/")`: scans left to right,
non-overlapping, replacing each occurrence of two slashes by one. -/
def replaceDS : PyStr → PyStr
  | [] => []
  | [c] => [c]
  | a :: b :: rest =>
    if a == '/' && b == '/' then '/' :: replaceDS rest
    else a :: replaceDS (b :: rest)

/-- Python `"//" in path`: does the string contain two adjacent slashes? -/
def hasDS : PyStr → Bool
  | [] => false
  | [_] => false
  | a :: b :: rest => (a == '/' && b == '/') || hasDS (b :: rest)

theorem replaceDS_length_le : ∀ l : PyStr, (replaceDS l).length ≤ l.length
  | [] => by simp [replaceDS]
  | [c] => by simp [replaceDS]
  | a :: b :: rest => by
    have h1 := replaceDS_length_le rest
    have h2 := replaceDS_length_le (b :: rest)
    simp only [List.length_cons] at h1 h2 ⊢
    by_cases h : a == '/' && b == '/' <;> simp [replaceDS, h] <;> omega

theorem replaceDS_length_lt : ∀ l : PyStr, hasDS l = true → (replaceDS l).length < l.length
  | [], h => by simp [hasDS] at h
  | [c], h => by simp [hasDS] at h
  | a :: b :: rest, h => by
    by_cases hab : a == '/' && b == '/'
    · have hle := replaceDS_length_le rest
      simp [replaceDS, hab]
      omega
    · have hrest : hasDS (b :: rest) = true := by
        simp only [hasDS, hab, Bool.false_or] at h
        exact h
      have hlt := replaceDS_length_lt (b :: rest) hrest
      simp only [List.length_cons] at hlt
      simp [replaceDS, hab]
      omega

/-- Fuel-driven encoding of the `while '//' in path: path =
path.replace('//', '/')` loop from `PathUtils.normalize_path`; each
replacement pass strictly shrinks the string, so `l.length` passes always
reach the loop's exit condition (proved in `hasDS_collapseFuel`). -/
def collapseFuel : Nat → PyStr → PyStr
  | 0, l => l
  | n + 1, l => if hasDS l then collapseFuel n (replaceDS l) else l

def collapseSlashes (l : PyStr) : PyStr := collapseFuel l.length l

theorem collapseFuel_of_not_hasDS : ∀ (n : Nat) (l : PyStr), hasDS l = false →
    collapseFuel n l = l
  | 0, _, _ => rfl
  | _ + 1, l, h => by simp [collapseFuel, h]

theorem hasDS_collapseFuel : ∀ (n : Nat) (l : PyStr), l.length ≤ n →
    hasDS (collapseFuel n l) = false
  | 0, l, h => by
    have : l = [] := List.eq_nil_of_length_eq_zero (Nat.le_zero.mp h)
    subst this; rfl
  | n + 1, l, h => by
    by_cases hl : hasDS l
    · have hlt := replaceDS_length_lt l hl
      have : (replaceDS l).length ≤ n := by omega
      simpa [collapseFuel, hl] using hasDS_collapseFuel n (replaceDS l) this
    · rw [Bool.not_eq_true] at hl
      simp [collapseFuel, hl]

theorem hasDS_collapseSlashes (l : PyStr) : hasDS (collapseSlashes l) = false :=
  hasDS_collapseFuel l.length l (Nat.le_refl _)

/-- The two-character component `".."`. -/
def dotsSeg : Seg := ['.', '.']

/-- Python `str.split('/')`: splits on every slash, keeping empty pieces,
and yields `[""]` for the empty string. -/
def pySplit : PyStr → List Seg
  | [] => [[]]
  | c :: rest =>
    match pySplit rest with
    | [] => [[]]
    | s :: ss => if c == '/' then [] :: s :: ss else (c :: s) :: ss

/-- Python `'/'.join(comps)`. -/
def joinSlash : List Seg → PyStr
  | [] => []
  | [c] => c
  | c :: rest => c ++ '/' :: joinSlash rest

/-- One iteration of the component loop inside `posixpath.normpath`
(CPython's `for comp in comps` body).  `initialSlashes` is zero exactly
when the input path is relative. -/
def npStep (initialSlashes : Nat) (acc : List Seg) (comp : Seg) : List Seg :=
  if comp = [] ∨ comp = ['.'] then acc
  else if comp ≠ dotsSeg ∨ (initialSlashes = 0 ∧ acc = []) ∨
      (acc ≠ [] ∧ acc.getLast? = some dotsSeg) then acc ++ [comp]
  else if acc ≠ [] then acc.dropLast
  else acc

/-- `posixpath.normpath`, modelled from CPython's implementation: split on
`'/'`, drop empty and `'.'` components, resolve `'..'` lexically (keeping a
leading run of `'..'` for relative paths), re-join, and preserve one or two
initial slashes. -/
def normpath (l : PyStr) : PyStr :=
  if l = [] then ['.']
  else
    let initialSlashes : Nat :=
      if ('/' :: '/' :: []).isPrefixOf l ∧ ¬ ('/' :: '/' :: '/' :: []).isPrefixOf l then 2
      else if l.head? = some '/' then 1
      else 0
    let comps := pySplit l
    let newComps := comps.foldl (npStep initialSlashes) []
    let joined := joinSlash newComps
    let res := List.replicate initialSlashes '/' ++ joined
    if res = [] then ['.'] else res

/-- `PathUtils.normalize_path` from `app/utils/path.py`: strip whitespace,
strip leading slashes, convert backslashes to slashes, collapse repeated
slashes, strip trailing slashes, `os.path.normpath`, and map a result of
`"."` to the empty string.  (The `os.sep != '/'` branch is dead on POSIX.) -/
def normalize_path (path : PyStr) : PyStr :=
  if path = [] then []
  else
    let p1 := pyStrip path
    let p2 := p1.dropWhile (· == '/')
    let p3 := p2.map (fun c => if c == '\\' then '/' else c)
    let p4 := collapseSlashes p3
    let p5 := dropTrail (· == '/') p4
    let p6 := normpath p5
    if p6 = ['.'] then [] else p6

/-! ### Helper lemmas about the string primitives (used for C7) -/

theorem dropWhile_eq_self_of_mem (f : Char → Bool) (l : PyStr)
    (h : ∀ c ∈ l, f c = false) : l.dropWhile f = l := by
  cases l with
  | nil => rfl
  | cons c rest => simp [List.dropWhile_cons, h c (List.mem_cons_self c rest)]

theorem dropWhile_eq_self_of_head (f : Char → Bool) (l : PyStr)
    (h : ∀ c, l.head? = some c → f c = false) : l.dropWhile f = l := by
  cases l with
  | nil => rfl
  | cons c rest => simp [List.dropWhile_cons, h c rfl]

theorem mem_of_mem_dropWhile (f : Char → Bool) (l : PyStr) (c : Char)
    (h : c ∈ l.dropWhile f) : c ∈ l :=
  (List.dropWhile_sublist f).mem h

theorem mem_of_mem_dropTrail (f : Char → Bool) (l : PyStr) (c : Char)
    (h : c ∈ dropTrail f l) : c ∈ l := by
  unfold dropTrail at h
  rw [List.mem_reverse] at h
  exact List.mem_reverse.mp (mem_of_mem_dropWhile f l.reverse c h)

theorem dropTrail_eq_self (f : Char → Bool) (l : PyStr)
    (h : ∀ c, l.getLast? = some c → f c = false) : dropTrail f l = l := by
  unfold dropTrail
  rw [dropWhile_eq_self_of_head f l.reverse (fun c hc => h c (by rwa [List.head?_reverse] at hc)),
    List.reverse_reverse]

theorem dropTrail_append (f : Char → Bool) (l : PyStr) :
    ∃ t, l = dropTrail f l ++ t := by
  refine ⟨(l.reverse.takeWhile f).reverse, ?_⟩
  unfold dropTrail
  rw [← List.reverse_append, List.takeWhile_append_dropWhile, List.reverse_reverse]

theorem head?_of_dropTrail (f : Char → Bool) (l : PyStr) (c : Char)
    (h : (dropTrail f l).head? = some c) : l.head? = some c := by
  obtain ⟨t, ht⟩ := dropTrail_append f l
  rw [ht]
  cases hd : dropTrail f l with
  | nil => rw [hd] at h; cases h
  | cons x xs => rw [hd] at h; simpa using h

theorem mem_of_mem_pyStrip (l : PyStr) (c : Char) (h : c ∈ pyStrip l) : c ∈ l :=
  mem_of_mem_dropWhile pyIsSpace l c (mem_of_mem_dropTrail pyIsSpace _ c h)

theorem pyStrip_eq_self (l : PyStr) (h : ∀ c ∈ l, pyIsSpace c = false) :
    pyStrip l = l := by
  unfold pyStrip
  rw [dropWhile_eq_self_of_mem pyIsSpace l h]
  exact dropTrail_eq_self pyIsSpace l (fun c hc => h c (by
    rw [← List.head?_reverse] at hc
    exact List.mem_reverse.mp (List.mem_of_mem_head? hc)))

theorem map_eq_self_of (f : Char → Char) (l : PyStr) (h : ∀ c ∈ l, f c = c) :
    l.map f = l :=
  (List.map_congr_left h).trans (List.map_id l)

theorem mem_of_mem_replaceDS : ∀ (l : PyStr) (c : Char), c ∈ replaceDS l →
    c = '/' ∨ c ∈ l
  | [], c, h => by simp [replaceDS] at h
  | [a], c, h => by simp [replaceDS] at h; simp [h]
  | a :: b :: rest, c, h => by
    by_cases hab : a == '/' && b == '/'
    · rw [show replaceDS (a :: b :: rest) = '/' :: replaceDS rest from by
        simp [replaceDS, hab]] at h
      rcases List.mem_cons.mp h with h1 | h1
      · exact Or.inl h1
      · rcases mem_of_mem_replaceDS rest c h1 with h2 | h2
        · exact Or.inl h2
        · exact Or.inr (List.mem_cons_of_mem a (List.mem_cons_of_mem b h2))
    · rw [show replaceDS (a :: b :: rest) = a :: replaceDS (b :: rest) from by
        simp [replaceDS, hab]] at h
      rcases List.mem_cons.mp h with h1 | h1
      · exact Or.inr (by rw [h1]; exact List.mem_cons_self a (b :: rest))
      · rcases mem_of_mem_replaceDS (b :: rest) c h1 with h2 | h2
        · exact Or.inl h2
        · exact Or.inr (List.mem_cons_of_mem a h2)

theorem head?_replaceDS : ∀ l : PyStr, l.head? ≠ some '/' →
    (replaceDS l).head? = l.head?
  | [], _ => rfl
  | [a], _ => rfl
  | a :: b :: rest, h => by
    have ha : a ≠ '/' := by intro hc; exact h (by rw [hc]; rfl)
    have hab : (a == '/' && b == '/') = false := by
      simp [ha]
    simp [replaceDS, hab]

theorem mem_of_mem_collapseFuel : ∀ (n : Nat) (l : PyStr) (c : Char),
    c ∈ collapseFuel n l → c = '/' ∨ c ∈ l
  | 0, l, c, h => Or.inr h
  | n + 1, l, c, h => by
    by_cases hl : hasDS l
    · simp only [collapseFuel, hl, if_true] at h
      rcases mem_of_mem_collapseFuel n (replaceDS l) c h with h' | h'
      · exact Or.inl h'
      · exact mem_of_mem_replaceDS l c h'
    · simp only [collapseFuel, hl, if_false] at h
      exact Or.inr h

theorem head?_collapseFuel : ∀ (n : Nat) (l : PyStr), l.head? ≠ some '/' →
    (collapseFuel n l).head? ≠ some '/'
  | 0, l, h => h
  | n + 1, l, h => by
    by_cases hl : hasDS l
    · simp only [collapseFuel, hl, if_true]
      exact head?_collapseFuel n (replaceDS l) (by rw [head?_replaceDS l h]; exact h)
    · simpa only [collapseFuel, hl, if_false] using h

theorem pySplit_ne_nil : ∀ l : PyStr, pySplit l ≠ []
  | [] => by simp [pySplit]
  | c :: rest => by
    have := pySplit_ne_nil rest
    cases h : pySplit rest with
    | nil => exact absurd h this
    | cons s ss => by_cases hc : c == '/' <;> simp [pySplit, h, hc]

theorem not_slash_mem_pySplit : ∀ (l : PyStr) (s : Seg), s ∈ pySplit l → '/' ∉ s
  | [], s, h => by
    simp only [pySplit, List.mem_singleton] at h
    subst h; simp
  | c :: rest, s, h => by
    cases hr : pySplit rest with
    | nil => exact absurd hr (pySplit_ne_nil rest)
    | cons t ts =>
      have ht : t ∈ pySplit rest := by rw [hr]; exact List.mem_cons_self t ts
      by_cases hc : c == '/'
      · rw [show pySplit (c :: rest) = [] :: t :: ts from by simp [pySplit, hr, hc]] at h
        rcases List.mem_cons.mp h with h1 | h1
        · rw [h1]; simp
        · exact not_slash_mem_pySplit rest s (by rw [hr]; exact h1)
      · rw [show pySplit (c :: rest) = (c :: t) :: ts from by simp [pySplit, hr, hc]] at h
        rcases List.mem_cons.mp h with h1 | h1
        · rw [h1]
          intro hmem
          rcases List.mem_cons.mp hmem with h2 | h2
          · exact absurd (beq_iff_eq.mpr h2.symm) (by simpa using hc)
          · exact not_slash_mem_pySplit rest t ht h2
        · exact not_slash_mem_pySplit rest s (by rw [hr]; exact List.mem_cons_of_mem t h1)

theorem mem_of_mem_pySplit : ∀ (l : PyStr) (s : Seg) (c : Char),
    s ∈ pySplit l → c ∈ s → c ∈ l
  | [], s, c, hs, hc => by
    simp only [pySplit, List.mem_singleton] at hs
    subst hs; cases hc
  | a :: rest, s, c, hs, hc => by
    cases hr : pySplit rest with
    | nil => exact absurd hr (pySplit_ne_nil rest)
    | cons t ts =>
      have ht : t ∈ pySplit rest := by rw [hr]; exact List.mem_cons_self t ts
      by_cases ha : a == '/'
      · rw [show pySplit (a :: rest) = [] :: t :: ts from by simp [pySplit, hr, ha]] at hs
        rcases List.mem_cons.mp hs with h1 | h1
        · rw [h1] at hc; cases hc
        · exact List.mem_cons_of_mem a (mem_of_mem_pySplit rest s c (by rw [hr]; exact h1) hc)
      · rw [show pySplit (a :: rest) = (a :: t) :: ts from by simp [pySplit, hr, ha]] at hs
        rcases List.mem_cons.mp hs with h1 | h1
        · rw [h1] at hc
          rcases List.mem_cons.mp hc with h2 | h2
          · rw [h2]; exact List.mem_cons_self a rest
          · exact List.mem_cons_of_mem a (mem_of_mem_pySplit rest t c ht h2)
        · exact List.mem_cons_of_mem a
            (mem_of_mem_pySplit rest s c (by rw [hr]; exact List.mem_cons_of_mem t h1) hc)

theorem pySplit_no_slash : ∀ l : PyStr, '/' ∉ l → pySplit l = [l]
  | [], _ => rfl
  | c :: rest, h => by
    have hc : (c == '/') = false := by
      simp only [beq_eq_false_iff_ne, ne_eq]
      intro hcc
      exact h (by rw [hcc]; exact List.mem_cons_self _ _)
    have hr := pySplit_no_slash rest (fun hm => h (List.mem_cons_of_mem c hm))
    simp [pySplit, hr, hc]

theorem pySplit_slashfree_append : ∀ (x y : PyStr), '/' ∉ x →
    pySplit (x ++ y) = match pySplit y with
      | [] => [x]
      | s :: ss => (x ++ s) :: ss
  | [], y, _ => by
    cases hy : pySplit y with
    | nil => exact absurd hy (pySplit_ne_nil y)
    | cons s ss => simp [hy]
  | a :: x, y, h => by
    have ha : (a == '/') = false := by
      simp only [beq_eq_false_iff_ne, ne_eq]
      intro hcc
      exact h (by rw [hcc]; exact List.mem_cons_self _ _)
    have hx := pySplit_slashfree_append x y (fun hm => h (List.mem_cons_of_mem a hm))
    cases hy : pySplit y with
    | nil => exact absurd hy (pySplit_ne_nil y)
    | cons s ss =>
      rw [hy] at hx
      simp only at hx
      simp only [hy]
      rw [show (a :: x) ++ y = a :: (x ++ y) from rfl]
      simp [pySplit, hx, ha]

theorem pySplit_joinSlash : ∀ cs : List Seg, cs ≠ [] → (∀ s ∈ cs, '/' ∉ s) →
    pySplit (joinSlash cs) = cs
  | [], h, _ => absurd rfl h
  | [c], _, hs => by
    simp only [joinSlash]
    exact pySplit_no_slash c (hs c (List.mem_singleton.mpr rfl))
  | c :: c' :: rest, _, hs => by
    have hc : '/' ∉ c := hs c (List.mem_cons_self _ _)
    have ih := pySplit_joinSlash (c' :: rest) (by simp)
      (fun s hm => hs s (List.mem_cons_of_mem c hm))
    have hz : pySplit ('/' :: joinSlash (c' :: rest)) = [] :: pySplit (joinSlash (c' :: rest)) := by
      cases hj : pySplit (joinSlash (c' :: rest)) with
      | nil => exact absurd hj (pySplit_ne_nil _)
      | cons t ts => simp [pySplit, hj]
    rw [show joinSlash (c :: c' :: rest) = c ++ '/' :: joinSlash (c' :: rest) from rfl,
      pySplit_slashfree_append c _ hc, hz, ih]
    simp

theorem joinSlash_head? (c : Seg) (cs : List Seg) (h : c ≠ []) :
    (joinSlash (c :: cs)).head? = c.head? := by
  cases cs with
  | nil => rfl
  | cons c2 rest =>
    rw [show joinSlash (c :: c2 :: rest) = c ++ '/' :: joinSlash (c2 :: rest) from rfl]
    cases c with
    | nil => exact absurd rfl h
    | cons a t => rfl

theorem joinSlash_ne_nil (c : Seg) (cs : List Seg) (h : c ≠ []) :
    joinSlash (c :: cs) ≠ [] := by
  intro hj
  have := joinSlash_head? c cs h
  rw [hj] at this
  cases c with
  | nil => exact absurd rfl h
  | cons a t => cases this

theorem getLast?_joinSlash : ∀ cs : List Seg, cs ≠ [] → (∀ s ∈ cs, s ≠ [] ∧ '/' ∉ s) →
    ∀ c, (joinSlash cs).getLast? = some c → c ≠ '/'
  | [], h, _, _, _ => absurd rfl h
  | [c0], _, hs, c, hc => by
    simp only [joinSlash] at hc
    have hmem : c ∈ c0 := by
      rw [← List.head?_reverse] at hc
      exact List.mem_reverse.mp (List.mem_of_mem_head? hc)
    intro hslash
    exact (hs c0 (List.mem_singleton.mpr rfl)).2 (hslash ▸ hmem)
  | c0 :: c1 :: rest, _, hs, c, hc => by
    have hj : joinSlash (c1 :: rest) ≠ [] :=
      joinSlash_ne_nil c1 rest (hs c1 (List.mem_cons_of_mem c0 (List.mem_cons_self _ _))).1
    rw [show joinSlash (c0 :: c1 :: rest) = c0 ++ '/' :: joinSlash (c1 :: rest) from rfl,
      List.getLast?_append] at hc
    have hlast : ('/' :: joinSlash (c1 :: rest)).getLast? = (joinSlash (c1 :: rest)).getLast? := by
      cases hjj : joinSlash (c1 :: rest) with
      | nil => exact absurd hjj hj
      | cons a t => exact List.getLast?_cons_cons
    rw [hlast] at hc
    cases hgl : (joinSlash (c1 :: rest)).getLast? with
    | none =>
      cases hjj : joinSlash (c1 :: rest) with
      | nil => exact absurd hjj hj
      | cons a t => rw [hjj] at hgl; simp [List.getLast?] at hgl
    | some d =>
      rw [hgl] at hc
      simp only [Option.or_some, Option.some.injEq] at hc
      subst hc
      exact getLast?_joinSlash (c1 :: rest) (by simp)
        (fun s hm => hs s (List.mem_cons_of_mem c0 hm)) _ hgl

theorem mem_of_mem_joinSlash : ∀ (cs : List Seg) (c : Char), c ∈ joinSlash cs →
    c = '/' ∨ ∃ s ∈ cs, c ∈ s
  | [], c, h => by cases h
  | [c0], c, h => Or.inr ⟨c0, List.mem_singleton.mpr rfl, h⟩
  | c0 :: c1 :: rest, c, h => by
    rw [show joinSlash (c0 :: c1 :: rest) = c0 ++ '/' :: joinSlash (c1 :: rest) from rfl] at h
    rcases List.mem_append.mp h with h1 | h1
    · exact Or.inr ⟨c0, List.mem_cons_self _ _, h1⟩
    · rcases List.mem_cons.mp h1 with rfl | h2
      · exact Or.inl rfl
      · rcases mem_of_mem_joinSlash (c1 :: rest) c h2 with h3 | ⟨s, hm, hcs⟩
        · exact Or.inl h3
        · exact Or.inr ⟨s, List.mem_cons_of_mem c0 hm, hcs⟩

theorem hasDS_no_slash : ∀ l : PyStr, '/' ∉ l → hasDS l = false
  | [], _ => rfl
  | [_], _ => rfl
  | a :: b :: rest, h => by
    have ha : (a == '/') = false := by
      simp only [beq_eq_false_iff_ne, ne_eq]
      intro hcc
      exact h (by rw [hcc]; exact List.mem_cons_self _ _)
    have hr := hasDS_no_slash (b :: rest) (fun hm => h (List.mem_cons_of_mem a hm))
    simp [hasDS, ha, hr]

theorem hasDS_cross : ∀ (x z : PyStr), '/' ∉ x → z.head? ≠ some '/' →
    hasDS z = false → hasDS (x ++ '/' :: z) = false
  | [], z, _, hz, hds => by
    cases z with
    | nil => rfl
    | cons b t =>
      have hb : (b == '/') = false := by
        simp only [beq_eq_false_iff_ne, ne_eq]
        intro hcc
        exact hz (by rw [hcc]; rfl)
      simp only [List.nil_append]
      rw [show hasDS ('/' :: b :: t) = (('/' == '/' && b == '/') || hasDS (b :: t)) from rfl,
        hb, hds]
      simp
  | a :: x, z, h, hz, hds => by
    have ha : (a == '/') = false := by
      simp only [beq_eq_false_iff_ne, ne_eq]
      intro hcc
      exact h (by rw [hcc]; exact List.mem_cons_self _ _)
    have ih := hasDS_cross x z (fun hm => h (List.mem_cons_of_mem a hm)) hz hds
    cases x with
    | nil =>
      simp only [List.nil_append] at ih
      simp only [List.cons_append, List.nil_append]
      rw [show hasDS (a :: '/' :: z) = ((a == '/' && '/' == '/') || hasDS ('/' :: z)) from rfl,
        ha, ih]
      simp
    | cons a2 t =>
      simp only [List.cons_append] at ih ⊢
      rw [show hasDS (a :: a2 :: (t ++ '/' :: z)) =
        ((a == '/' && a2 == '/') || hasDS (a2 :: (t ++ '/' :: z))) from rfl, ha, ih]
      simp

theorem hasDS_joinSlash : ∀ cs : List Seg, (∀ s ∈ cs, s ≠ [] ∧ '/' ∉ s) →
    hasDS (joinSlash cs) = false
  | [], _ => rfl
  | [c0], hs => hasDS_no_slash c0 (hs c0 (List.mem_singleton.mpr rfl)).2
  | c0 :: c1 :: rest, hs => by
    have h1 : c1 ≠ [] := (hs c1 (List.mem_cons_of_mem c0 (List.mem_cons_self _ _))).1
    have hhead : (joinSlash (c1 :: rest)).head? ≠ some '/' := by
      rw [joinSlash_head? c1 rest h1]
      intro hc
      exact (hs c1 (List.mem_cons_of_mem c0 (List.mem_cons_self _ _))).2
        (List.mem_of_mem_head? (by rw [hc]; exact rfl))
    have hds := hasDS_joinSlash (c1 :: rest) (fun s hm => hs s (List.mem_cons_of_mem c0 hm))
    exact hasDS_cross c0 _ (hs c0 (List.mem_cons_self _ _)).2 hhead hds

/-- Components that `posixpath.normpath` may keep on its stack: nonempty,
not `"."`, and free of separators. -/
def goodComp (s : Seg) : Prop := s ≠ [] ∧ s ≠ ['.'] ∧ '/' ∉ s

/-- Invariant of the `normpath` component stack for a relative path: a
leading run of `".."` components followed by components that are not
`".."`, all of them `goodComp`. -/
def StkAll (cs : List Seg) : Prop :=
  (∃ k tail, cs = List.replicate k dotsSeg ++ tail ∧ dotsSeg ∉ tail) ∧ ∀ s ∈ cs, goodComp s

theorem getLast?_replicate_dots (k : Nat) (h : 0 < k) :
    (List.replicate k dotsSeg).getLast? = some dotsSeg := by
  induction k with
  | zero => cases h
  | succ n ih =>
    rw [List.replicate_succ']
    exact List.getLast?_concat _

theorem dropLast_append_ne_nil (x : List Seg) : ∀ y : List Seg, y ≠ [] →
    (x ++ y).dropLast = x ++ y.dropLast := by
  induction x with
  | nil => intro y _; rfl
  | cons a t ih =>
    intro y hy
    have hne : t ++ y ≠ [] := by
      intro hc
      exact hy (List.append_eq_nil.mp hc).2
    rw [List.cons_append, List.dropLast_cons_of_ne_nil hne, ih y hy, List.cons_append]

theorem acc_replicate_of : ∀ (acc rest tail : List Seg) (k : Nat),
    acc ++ dotsSeg :: rest = List.replicate k dotsSeg ++ tail → dotsSeg ∉ tail →
    acc = List.replicate acc.length dotsSeg := by
  intro acc
  induction acc with
  | nil => intro _ _ _ _ _; rfl
  | cons a t ih =>
    intro rest tail k h hnd
    cases k with
    | zero =>
      simp only [List.replicate, List.nil_append] at h
      exact absurd (h ▸ (List.mem_append.mpr (Or.inr (List.mem_cons_self _ _)))) hnd
    | succ k' =>
      rw [List.replicate_succ, List.cons_append, List.cons_append] at h
      have ha : a = dotsSeg := (List.cons.injEq _ _ _ _ ▸ h).1
      have ht : t ++ dotsSeg :: rest = List.replicate k' dotsSeg ++ tail :=
        (List.cons.injEq _ _ _ _ ▸ h).2
      rw [List.length_cons, List.replicate_succ, ha]
      exact congrArg (List.cons dotsSeg) (ih rest tail k' ht hnd)

theorem StkAll_append_dots (acc : List Seg) (h : StkAll acc)
    (hl : acc = [] ∨ acc.getLast? = some dotsSeg) : StkAll (acc ++ [dotsSeg]) := by
  obtain ⟨⟨k, tail, hstruct, hnd⟩, hgood⟩ := h
  rcases hl with rfl | hlast
  · exact ⟨⟨1, [], by simp [List.replicate], by simp⟩, by
      intro s hs
      rw [List.nil_append, List.mem_singleton] at hs
      rw [hs]
      exact ⟨by simp [dotsSeg], by simp [dotsSeg], by simp [dotsSeg]⟩⟩
  · have htail : tail = [] := by
      by_contra hne
      rw [hstruct, List.getLast?_append] at hlast
      cases hg : tail.getLast? with
      | none =>
        cases tail with
        | nil => exact hne rfl
        | cons a t =>
          rw [show (a :: t).getLast? = some ((a :: t).getLast (by simp)) from
            List.getLast?_eq_getLast _ _] at hg
          cases hg
      | some d =>
        rw [hg] at hlast
        simp only [Option.or_some, Option.some.injEq] at hlast
        rw [hlast] at hg
        exact hnd (by
          rw [← List.head?_reverse] at hg
          exact List.mem_reverse.mp (List.mem_of_mem_head? hg))
    refine ⟨⟨k + 1, [], ?_, by simp⟩, ?_⟩
    · rw [hstruct, htail, List.append_nil, List.replicate_succ', List.append_nil]
    · intro s hs
      rcases List.mem_append.mp hs with hs1 | hs1
      · exact hgood s hs1
      · rw [List.mem_singleton.mp hs1]
        exact ⟨by simp [dotsSeg], by simp [dotsSeg], by simp [dotsSeg]⟩

theorem StkAll_nil : StkAll [] := ⟨⟨0, [], rfl, by simp⟩, by simp⟩

theorem goodComp_dots : goodComp dotsSeg := ⟨by simp [dotsSeg], by simp [dotsSeg], by simp [dotsSeg]⟩

theorem StkAll_append_other (acc : List Seg) (comp : Seg) (h : StkAll acc)
    (hg : goodComp comp) (hne : comp ≠ dotsSeg) : StkAll (acc ++ [comp]) := by
  obtain ⟨⟨k, tail, hstruct, hnd⟩, hgood⟩ := h
  refine ⟨⟨k, tail ++ [comp], by rw [hstruct, List.append_assoc], ?_⟩, ?_⟩
  · intro hc
    rcases List.mem_append.mp hc with hc1 | hc1
    · exact hnd hc1
    · exact hne (List.mem_singleton.mp hc1).symm
  · intro s hs
    rcases List.mem_append.mp hs with hs1 | hs1
    · exact hgood s hs1
    · rw [List.mem_singleton.mp hs1]; exact hg

theorem StkAll_dropLast (acc : List Seg) (h : StkAll acc) : StkAll acc.dropLast := by
  obtain ⟨⟨k, tail, hstruct, hnd⟩, hgood⟩ := h
  refine ⟨?_, fun s hs => hgood s ((List.dropLast_sublist acc).mem hs)⟩
  cases htail : tail with
  | nil =>
    rw [htail, List.append_nil] at hstruct
    cases k with
    | zero => exact ⟨0, [], by simp [hstruct, List.replicate], by simp⟩
    | succ k' =>
      refine ⟨k', [], ?_, by simp⟩
      rw [hstruct, List.replicate_succ', List.dropLast_concat, List.append_nil]
  | cons t0 ts =>
    refine ⟨k, tail.dropLast, ?_, fun hc => hnd ((List.dropLast_sublist tail).mem hc)⟩
    rw [hstruct, htail]
    exact dropLast_append_ne_nil _ _ (by simp)

theorem npStep_preserves (acc : List Seg) (comp : Seg) (h : StkAll acc)
    (hc : '/' ∉ comp) : StkAll (npStep 0 acc comp) := by
  by_cases h1 : comp = [] ∨ comp = ['.']
  · rw [npStep, if_pos h1]; exact h
  · push_neg at h1
    have hg : goodComp comp := ⟨h1.1, h1.2, hc⟩
    by_cases h2 : comp ≠ dotsSeg ∨ ((0 : Nat) = 0 ∧ acc = []) ∨
        (acc ≠ [] ∧ acc.getLast? = some dotsSeg)
    · rw [npStep, if_neg (by push_neg; exact h1), if_pos h2]
      by_cases hdots : comp = dotsSeg
      · subst hdots
        rcases h2 with h2 | h2 | h2
        · exact absurd rfl h2
        · exact StkAll_append_dots acc h (Or.inl h2.2)
        · exact StkAll_append_dots acc h (Or.inr h2.2)
      · exact StkAll_append_other acc comp h hg hdots
    · push_neg at h2
      have hacc : acc ≠ [] := fun hc2 => (h2.2.1 rfl hc2).elim
      rw [npStep, if_neg (by push_neg; exact h1), if_neg (by push_neg; exact h2), if_pos hacc]
      exact StkAll_dropLast acc h

theorem foldl_npStep_stk : ∀ (comps : List Seg) (acc : List Seg), StkAll acc →
    (∀ s ∈ comps, '/' ∉ s) → StkAll (comps.foldl (npStep 0) acc)
  | [], acc, h, _ => h
  | comp :: rest, acc, h, hs => by
    rw [List.foldl_cons]
    exact foldl_npStep_stk rest (npStep 0 acc comp)
      (npStep_preserves acc comp h (hs comp (List.mem_cons_self _ _)))
      (fun s hm => hs s (List.mem_cons_of_mem comp hm))

theorem mem_npStep (acc : List Seg) (comp s : Seg) (h : s ∈ npStep 0 acc comp) :
    s ∈ acc ∨ s = comp := by
  by_cases h1 : comp = [] ∨ comp = ['.']
  · rw [npStep, if_pos h1] at h; exact Or.inl h
  · by_cases h2 : comp ≠ dotsSeg ∨ ((0 : Nat) = 0 ∧ acc = []) ∨
        (acc ≠ [] ∧ acc.getLast? = some dotsSeg)
    · rw [npStep, if_neg (by push_neg at h1 ⊢; exact h1), if_pos h2] at h
      rcases List.mem_append.mp h with h3 | h3
      · exact Or.inl h3
      · exact Or.inr (List.mem_singleton.mp h3)
    · by_cases hacc : acc ≠ []
      · rw [npStep, if_neg (by push_neg at h1 ⊢; exact h1), if_neg h2, if_pos hacc] at h
        exact Or.inl ((List.dropLast_sublist acc).mem h)
      · rw [npStep, if_neg (by push_neg at h1 ⊢; exact h1), if_neg h2, if_neg hacc] at h
        exact Or.inl h

theorem mem_foldl_npStep : ∀ (comps : List Seg) (acc : List Seg) (s : Seg),
    s ∈ comps.foldl (npStep 0) acc → s ∈ acc ∨ s ∈ comps
  | [], _, _, h => Or.inl h
  | comp :: rest, acc, s, h => by
    rw [List.foldl_cons] at h
    rcases mem_foldl_npStep rest (npStep 0 acc comp) s h with h1 | h1
    · rcases mem_npStep acc comp s h1 with h2 | h2
      · exact Or.inl h2
      · exact Or.inr (by rw [h2]; exact List.mem_cons_self _ _)
    · exact Or.inr (List.mem_cons_of_mem comp h1)

theorem foldl_npStep_fix : ∀ (comps : List Seg) (acc : List Seg),
    StkAll (acc ++ comps) → comps.foldl (npStep 0) acc = acc ++ comps
  | [], acc, _ => by simp
  | comp :: rest, acc, h => by
    have hcg : goodComp comp :=
      h.2 comp (List.mem_append.mpr (Or.inr (List.mem_cons_self _ _)))
    have hstep : npStep 0 acc comp = acc ++ [comp] := by
      rw [npStep, if_neg (by push_neg; exact ⟨hcg.1, hcg.2.1⟩)]
      by_cases hdots : comp = dotsSeg
      · by_cases hacc : acc = []
        · rw [if_pos (Or.inr (Or.inl ⟨rfl, hacc⟩))]
        · obtain ⟨⟨k, tail, hstruct, hnd⟩, _⟩ := h
          rw [hdots] at hstruct
          have hrep := acc_replicate_of acc rest tail k hstruct hnd
          have hlen : 0 < acc.length := by
            cases hacc2 : acc with
            | nil => exact absurd hacc2 hacc
            | cons x xs => simp
          have hlast : acc.getLast? = some dotsSeg := by
            rw [hrep]
            exact getLast?_replicate_dots _ hlen
          rw [if_pos (Or.inr (Or.inr ⟨hacc, hlast⟩))]
      · rw [if_pos (Or.inl hdots)]
    rw [List.foldl_cons, hstep,
      foldl_npStep_fix rest (acc ++ [comp]) (by rw [List.append_assoc]; simpa using h)]
    simp

theorem isPre_slash_head (l : PyStr) (h : (['/', '/'] : PyStr).isPrefixOf l = true) :
    l.head? = some '/' := by
  cases l with
  | nil => simp [List.isPrefixOf] at h
  | cons c t =>
    simp only [List.isPrefixOf, Bool.and_eq_true, beq_iff_eq] at h
    rw [← h.1]
    rfl

/-- For a nonempty relative input (no leading slash), `normpath` is the
component fold re-joined, with `'.'` substituted for an empty result. -/
theorem normpath_rel (m : PyStr) (hm : m ≠ []) (hh : m.head? ≠ some '/') :
    normpath m = (if joinSlash ((pySplit m).foldl (npStep 0) []) = [] then ['.']
      else joinSlash ((pySplit m).foldl (npStep 0) [])) := by
  have hpre : ¬ ((['/', '/'] : PyStr).isPrefixOf m = true ∧
      ¬ (['/', '/', '/'] : PyStr).isPrefixOf m = true) :=
    fun hand => hh (isPre_slash_head m hand.1)
  rw [normpath, if_neg hm]
  simp only [if_neg hpre, if_neg hh, List.replicate, List.nil_append]

/-- The string-rewriting stages of `normalize_path` that precede
`os.path.normpath` (strip, lstrip `'/'`, backslash conversion, slash
collapsing, rstrip `'/'`). -/
def preNorm (path : PyStr) : PyStr :=
  dropTrail (· == '/') (collapseSlashes (((pyStrip path).dropWhile (· == '/')).map
    (fun c => if c == '\\' then '/' else c)))

theorem normalize_path_eq (path : PyStr) : normalize_path path =
    if path = [] then []
    else if normpath (preNorm path) = ['.'] then [] else normpath (preNorm path) := rfl

theorem head?_dropWhile_false (f : Char → Bool) : ∀ (l : PyStr) (c : Char),
    (l.dropWhile f).head? = some c → f c = false
  | [], c, h => by cases h
  | a :: t, c, h => by
    by_cases ha : f a
    · rw [List.dropWhile_cons, if_pos ha] at h
      exact head?_dropWhile_false f t c h
    · rw [List.dropWhile_cons, if_neg ha] at h
      cases h
      exact Bool.not_eq_true _ ▸ ha

/-- A character in the output of a `normalize_path` run is either a slash,
a dot, or a character of the input. -/
theorem mem_preNorm (p : PyStr) (c : Char) (h : c ∈ preNorm p) :
    c = '/' ∨ c ∈ p := by
  have h1 := mem_of_mem_dropTrail _ _ c h
  rcases mem_of_mem_collapseFuel _ _ c h1 with h2 | h2
  · exact Or.inl h2
  · rcases List.mem_map.mp h2 with ⟨d, hd, hdc⟩
    by_cases hb : d == '\\'
    · rw [← hdc]; simp [hb]
    · rw [← hdc]
      simp only [hb, if_false]
      exact Or.inr (mem_of_mem_pyStrip p d (mem_of_mem_dropWhile _ _ d hd))

theorem preNorm_head (p : PyStr) (hcl : ∀ c ∈ p, c ≠ '\\') :
    (preNorm p).head? ≠ some '/' := by
  have h3 : (((pyStrip p).dropWhile (· == '/')).map
      (fun c => if c == '\\' then '/' else c)).head? ≠ some '/' := by
    cases hs : (pyStrip p).dropWhile (· == '/') with
    | nil => simp
    | cons a t =>
      have ha : (a == '/') = false :=
        head?_dropWhile_false _ (pyStrip p) a (by rw [hs]; rfl)
      have hmem : a ∈ p := mem_of_mem_pyStrip p a
        (mem_of_mem_dropWhile _ _ a (by rw [hs]; exact List.mem_cons_self a t))
      have hab : a ≠ '\\' := hcl a hmem
      simp only [List.map_cons, List.head?_cons, ne_eq, Option.some.injEq]
      intro hcontra
      rw [if_neg (by simpa using hab)] at hcontra
      rw [hcontra] at ha
      simp at ha
  have h4 : (collapseSlashes (((pyStrip p).dropWhile (· == '/')).map
      (fun c => if c == '\\' then '/' else c))).head? ≠ some '/' :=
    head?_collapseFuel _ _ h3
  intro hq
  exact h4 (head?_of_dropTrail _ _ _ hq)

/-- A string that is the re-joined component stack of a relative
`normpath` run, with no whitespace or backslash characters, is a fixed
point of `normalize_path`. -/
theorem normalize_path_fixpoint_of_stk (cs : List Seg) (q : PyStr)
    (hstk : StkAll cs) (hq : q = joinSlash cs) (hqnil : q ≠ [])
    (hmemp : ∀ c ∈ q, c ≠ '\\' ∧ pyIsSpace c = false) :
    normalize_path q = q := by
  obtain ⟨c0, cs', rfl⟩ : ∃ c0 cs', cs = c0 :: cs' := by
    cases cs with
    | nil => exact absurd hq.symm (by simpa [joinSlash] using hqnil)
    | cons x xs => exact ⟨x, xs, rfl⟩
  have hgood := hstk.2
  have hc0 : goodComp c0 := hgood c0 (List.mem_cons_self _ _)
  have hqh : q.head? ≠ some '/' := by
    rw [hq, joinSlash_head? c0 cs' hc0.1]
    intro hch
    exact hc0.2.2 (List.mem_of_mem_head? (by rw [hch]; exact rfl))
  have hqDS : hasDS q = false := by
    rw [hq]
    exact hasDS_joinSlash _ (fun s hs => ⟨(hgood s hs).1, (hgood s hs).2.2⟩)
  have hqlast : ∀ c, q.getLast? = some c → (c == '/') = false := by
    intro c hcx
    have hne := getLast?_joinSlash (c0 :: cs') (by simp)
      (fun s hs => ⟨(hgood s hs).1, (hgood s hs).2.2⟩) c (by rw [← hq]; exact hcx)
    simpa using hne
  have hpre : preNorm q = q := by
    unfold preNorm
    rw [pyStrip_eq_self q (fun c hc => (hmemp c hc).2),
      dropWhile_eq_self_of_head _ q (fun c hc => by
        have hcs : c ≠ '/' := fun hcc => hqh (by rw [← hcc]; exact hc)
        simpa using hcs),
      map_eq_self_of _ q (fun c hc => by
        rw [if_neg (by simpa using (hmemp c hc).1)]),
      show collapseSlashes q = q from collapseFuel_of_not_hasDS _ q hqDS,
      dropTrail_eq_self _ q (fun c hc => hqlast c hc)]
  have hsplit : pySplit q = c0 :: cs' := by
    rw [hq]
    exact pySplit_joinSlash _ (by simp) (fun s hs => (hgood s hs).2.2)
  have hnq : normpath q = q := by
    rw [normpath_rel q hqnil hqh, hsplit,
      foldl_npStep_fix (c0 :: cs') [] (by simpa using hstk)]
    simp only [List.nil_append]
    rw [if_neg (by rw [← hq]; exact hqnil), hq]
  have hqdot : q ≠ ['.'] := by
    intro hde
    rw [hde] at hsplit
    have hred : pySplit (['.'] : PyStr) = [(['.'] : Seg)] := by decide
    rw [hred] at hsplit
    exact hc0.2.1 (by
      have := (List.cons.injEq (['.'] : Seg) [] c0 cs').mp hsplit
      exact this.1.symm)
  rw [normalize_path_eq q, if_neg hqnil, hpre, hnq, if_neg hqdot]

/-- **C7** (counterexample): `normalize_path` is not idempotent on all
strings.  A leading backslash survives the `lstrip('/')` step (which runs
before backslashes are converted to slashes), so `normalize_path "\\a"`
is `"/a"`, whose second normalization strips the slash and yields `"a"`.
Likewise whitespace inside a segment that `normpath` moves to the front
(`"x/../ a"` becomes `" a"`) is stripped only by the second pass. -/
theorem C7_counterexample :
    normalize_path (normalize_path ('\\' :: 'a' :: [])) ≠ normalize_path ('\\' :: 'a' :: []) ∧
    normalize_path (normalize_path "x/../ a".toList) ≠ normalize_path "x/../ a".toList := by
  constructor
  · decide
  · decide

/-- **C7** (amended): path normalization is idempotent on every string
that contains no backslash and no whitespace character: for such `p`,
`normalize_path (normalize_path p) = normalize_path p`.  (The
counterexample `C7_counterexample` shows both exclusions are necessary.) -/
theorem C7_normalize_path_idempotent (p : PyStr)
    (h : ∀ c ∈ p, c ≠ '\\' ∧ pyIsSpace c = false) :
    normalize_path (normalize_path p) = normalize_path p := by
  by_cases hp : p = []
  · rw [hp]; rfl
  rw [normalize_path_eq p, if_neg hp]
  by_cases hdot : normpath (preNorm p) = ['.']
  · rw [if_pos hdot]; rfl
  rw [if_neg hdot]
  by_cases hmnil : preNorm p = []
  · exact absurd (by rw [hmnil]; rfl) hdot
  have hmh : (preNorm p).head? ≠ some '/' := preNorm_head p (fun c hc => (h c hc).1)
  have hchar := normpath_rel (preNorm p) hmnil hmh
  by_cases hjnil : joinSlash ((pySplit (preNorm p)).foldl (npStep 0) []) = []
  · rw [hchar, if_pos hjnil] at hdot
    exact absurd rfl hdot
  have hq : normpath (preNorm p) = joinSlash ((pySplit (preNorm p)).foldl (npStep 0) []) := by
    rw [hchar, if_neg hjnil]
  have hstk : StkAll ((pySplit (preNorm p)).foldl (npStep 0) []) :=
    foldl_npStep_stk _ [] StkAll_nil (fun s hs => not_slash_mem_pySplit _ s hs)
  have hqnil : normpath (preNorm p) ≠ [] := by rw [hq]; exact hjnil
  have hmemp : ∀ c ∈ normpath (preNorm p), c ≠ '\\' ∧ pyIsSpace c = false := by
    intro c hcq
    rw [hq] at hcq
    rcases mem_of_mem_joinSlash _ c hcq with rfl | ⟨s, hsm, hcs1⟩
    · exact ⟨by decide, by decide⟩
    · rcases mem_foldl_npStep _ [] s hsm with hnil | hsp
      · cases hnil
      · rcases mem_preNorm p c (mem_of_mem_pySplit _ s c hsp hcs1) with rfl | hcp
        · exact ⟨by decide, by decide⟩
        · exact h c hcp
  exact normalize_path_fixpoint_of_stk _ _ hstk hq hqnil hmemp

/-- **C7** (witness): a concrete backslash-free, whitespace-free path on
which the amended idempotence theorem applies. -/
theorem C7_witness :
    (∀ c ∈ "Series/../Vol.zip/page1.jpg".toList, c ≠ '\\' ∧ pyIsSpace c = false) ∧
    normalize_path (normalize_path "Series/../Vol.zip/page1.jpg".toList) =
      normalize_path "Series/../Vol.zip/page1.jpg".toList :=
  ⟨by decide, C7_normalize_path_idempotent "Series/../Vol.zip/page1.jpg".toList (by decide)⟩

/-! ### Bytes, UTF-8 decoding and URL decoding

A Python `bytes` object is a sequence of values in `0..255`; it is
modelled as `List Nat` (the decoders treat a value `≥ 256`, which cannot
occur in Python, as an invalid byte). -/

/-- Is the byte a UTF-8 continuation byte (`0x80..0xBF`)? -/
def isCont (b : Nat) : Bool := 0x80 ≤ b && b ≤ 0xBF

/-- Fuel-driven UTF-8 decoder implementing Python's `errors='ignore'`
(`repl = false`) and `errors='replace'` (`repl = true`) handlers: a valid
sequence is decoded, an invalid byte is skipped (`ignore`) or replaced by
U+FFFD (`replace`).  (CPython's error handler can consume a maximal
invalid subpart of up to three bytes at once; this model consumes one
byte per error, which only affects how many U+FFFD replacements appear, a
detail none of the verified claims depends on.)  One byte is consumed per
step, so `bs.length` fuel always suffices. -/
def utf8Fuel (repl : Bool) : Nat → List Nat → PyStr
  | _, [] => []
  | 0, _ => []
  | n + 1, b :: rest =>
    let err : PyStr := if repl then [Char.ofNat 0xFFFD] else []
    if b < 0x80 then Char.ofNat b :: utf8Fuel repl n rest
    else if 0xC2 ≤ b && b ≤ 0xDF then
      match rest with
      | b2 :: rest2 =>
        if isCont b2 then
          Char.ofNat ((b - 0xC0) * 0x40 + (b2 - 0x80)) :: utf8Fuel repl n rest2
        else err ++ utf8Fuel repl n rest
      | [] => err
    else if 0xE0 ≤ b && b ≤ 0xEF then
      match rest with
      | b2 :: b3 :: rest3 =>
        if (isCont b2 && (b != 0xE0 || 0xA0 ≤ b2) && (b != 0xED || b2 ≤ 0x9F)) && isCont b3 then
          Char.ofNat ((b - 0xE0) * 0x1000 + (b2 - 0x80) * 0x40 + (b3 - 0x80)) ::
            utf8Fuel repl n rest3
        else err ++ utf8Fuel repl n rest
      | _ => err ++ utf8Fuel repl n rest
    else if 0xF0 ≤ b && b ≤ 0xF4 then
      match rest with
      | b2 :: b3 :: b4 :: rest4 =>
        if ((isCont b2 && (b != 0xF0 || 0x90 ≤ b2) && (b != 0xF4 || b2 ≤ 0x8F)) &&
            isCont b3) && isCont b4 then
          Char.ofNat ((b - 0xF0) * 0x40000 + (b2 - 0x80) * 0x1000 +
            (b3 - 0x80) * 0x40 + (b4 - 0x80)) :: utf8Fuel repl n rest4
        else err ++ utf8Fuel repl n rest
      | _ => err ++ utf8Fuel repl n rest
    else err ++ utf8Fuel repl n rest

/-- `bytes.decode('utf-8', errors='ignore')` — total by construction. -/
def utf8IgnoreDecode (bs : List Nat) : PyStr := utf8Fuel false bs.length bs

/-- `bytes.decode('utf-8', errors='replace')` — total by construction;
used by `urllib.parse.unquote`. -/
def utf8ReplaceDecode (bs : List Nat) : PyStr := utf8Fuel true bs.length bs

/-- `bytes.decode('latin1')`: each byte becomes the code point of the same
value; total because every value `0..255` is a Unicode scalar. -/
def latin1Decode (bs : List Nat) : PyStr := bs.map Char.ofNat

/-- Hexadecimal digit value, as accepted inside a `%XX` escape. -/
def hexVal? (c : Char) : Option Nat :=
  if '0' ≤ c && c ≤ '9' then some (c.toNat - 48)
  else if 'a' ≤ c && c ≤ 'f' then some (c.toNat - 87)
  else if 'A' ≤ c && c ≤ 'F' then some (c.toNat - 55)
  else none

/-- A token of `urllib.parse.unquote`: either a literal character or a
percent-decoded byte. -/
inductive UqTok : Type
  | lit (c : Char)
  | byte (b : Nat)
deriving DecidableEq

def UqTok.isByte : UqTok → Bool
  | .byte _ => true
  | .lit _ => false

def UqTok.byteVal : UqTok → Nat
  | .byte b => b
  | .lit _ => 0

/-- Tokenize for `urllib.parse.unquote`: a `%` followed by two hex digits
becomes a byte, everything else stays a literal character (including a `%`
not followed by two hex digits). -/
def unquoteTokens : PyStr → List UqTok
  | [] => []
  | '%' :: a :: b :: rest =>
    match hexVal? a, hexVal? b with
    | some ha, some hb => .byte (ha * 16 + hb) :: unquoteTokens rest
    | _, _ => .lit '%' :: unquoteTokens (a :: b :: rest)
  | c :: rest => .lit c :: unquoteTokens rest

/-- Render the token stream: maximal runs of percent-decoded bytes are
decoded as UTF-8 with `errors='replace'` (CPython's default for
`unquote`), literals pass through.  Fuel-driven; one token is consumed per
step, so the token count suffices as fuel. -/
def renderFuel : Nat → List UqTok → PyStr
  | _, [] => []
  | 0, _ => []
  | n + 1, .lit c :: rest => c :: renderFuel n rest
  | n + 1, .byte b :: rest =>
    utf8ReplaceDecode (b :: (rest.takeWhile UqTok.isByte).map UqTok.byteVal) ++
      renderFuel n (rest.dropWhile UqTok.isByte)

/-- `urllib.parse.unquote` (with its default UTF-8/replace semantics). -/
def pyUnquote (s : PyStr) : PyStr :=
  renderFuel (unquoteTokens s).length (unquoteTokens s)

example : pyUnquote "a%2Fb".toList = "a/b".toList := by decide
example : pyUnquote "/a".toList = "/a".toList := by decide
example : pyUnquote "%EA%B0%80".toList = ['가'] := by decide
example : pyUnquote "%".toList = "%".toList := by decide

/-! ### `pathlib` joining and the sandbox check -/

/-- The path segments `pathlib` extracts from a relative path string:
split on `'/'`, dropping empty pieces and single-dot pieces. -/
def segsOf (rel : PyStr) : List Seg :=
  (pySplit rel).filter (fun s => !s.isEmpty && s ≠ ['.'])

/-- `Path(base) / rel` for an absolute `base` given as a segment list: if
`rel` is absolute (leading slash) it replaces `base` entirely, otherwise
its segments are appended. -/
def pyJoin (base : List Seg) (rel : PyStr) : List Seg :=
  if rel.head? = some '/' then segsOf rel else base ++ segsOf rel

/-- Boolean segment-list test used to model `full.relative_to(base)`:
`relative_to` succeeds exactly when `base`'s parts lead `full`'s parts. -/
def segPre : List Seg → List Seg → Bool
  | [], _ => true
  | _ :: _, [] => false
  | a :: as, b :: bs => a == b && segPre as bs

theorem segPre_refl : ∀ l : List Seg, segPre l l = true
  | [] => rfl
  | a :: as => by simp [segPre, segPre_refl as]

/-- `PathUtils.is_safe_path` from `app/utils/path.py`.  The real
filesystem's `Path.resolve()` (symlinks and `..` resolution included) is
the oracle `fsResolve` on absolute segment lists; `base_path` is the
manga root as an absolute segment list.  The code's blanket
`except Exception: return False` has no counterpart because every
operation in this model is total. -/
def is_safe_path (fsResolve : List Seg → List Seg) (base_path : List Seg)
    (requested_path : PyStr) : Bool :=
  let decoded_path := pyUnquote requested_path
  let normalized_path := normalize_path decoded_path
  if normalized_path = [] then true
  else if decoded_path.head? = some '/' then false
  else
    let full_path := fsResolve (pyJoin base_path normalized_path)
    let base_path_resolved := fsResolve base_path
    segPre base_path_resolved full_path

/-- The resolved candidate path the safety check compares against the
resolved root: root joined with the normalized (URL-decoded) relative
path, then resolved against the filesystem. -/
def resolvedCandidate (fsResolve : List Seg → List Seg) (base_path : List Seg)
    (requested_path : PyStr) : List Seg :=
  fsResolve (pyJoin base_path (normalize_path (pyUnquote requested_path)))

example : is_safe_path (fun l => l) [['r']] "a/b".toList = true := by decide
example : is_safe_path (fun l => l) [['r']] "/a".toList = false := by decide
example : is_safe_path (fun l => l) [['r']] "".toList = true := by decide

example : normalize_path "a//b/".toList = "a/b".toList := by decide
example : normalize_path "/a/b".toList = "a/b".toList := by decide
example : normalize_path "  a/./b  ".toList = "a/b".toList := by decide
example : normalize_path "a/../../b".toList = "../b".toList := by decide
example : normalize_path "\\a".toList = "/a".toList := by decide
example : normalize_path "/a".toList = "a".toList := by decide
example : normalize_path "..".toList = "..".toList := by decide
example : normalize_path "/".toList = "".toList := by decide

/-! ### C1: the sandbox safety check -/

/-- The identity resolver: a filesystem with no symlinks and no `..`
segments to resolve in the paths it is given. -/
def idResolve : List Seg → List Seg := fun l => l

/-- A tiny concrete filesystem in which `root/..` resolves to the
filesystem root (above the library root), as `Path.resolve()` would. -/
def upResolve : List Seg → List Seg :=
  fun l => if l = [['r'], ['.', '.']] then [] else l

/-- **C1** (counterexample): a path whose resolved candidate is inside the
library root can still be rejected.  With the identity resolver and root
`["library"]`, the request `"/a"` has candidate `["library", "a"]` (the
normalized relative path is `"a"`), which is a descendant of the root,
yet `is_safe_path` returns `false` because the URL-decoded path begins
with `'/'`. -/
theorem C1_counterexample :
    segPre (idResolve [("library".toList : Seg)])
      (resolvedCandidate idResolve [("library".toList : Seg)] "/a".toList) = true ∧
    is_safe_path idResolve [("library".toList : Seg)] "/a".toList = false := by
  constructor
  · decide
  · decide

/-- **C1** (amended): (1) whenever the resolved candidate (root joined
with the normalized URL-decoded relative path, then resolved through the
filesystem oracle) is not the resolved root or a descendant of it, the
check rejects; (2) the check accepts exactly when the normalized decoded
path is empty (the root itself), or the decoded path does not begin with
`'/'` and the resolved candidate is the resolved root or a descendant of
it. -/
theorem C1_is_safe_path_characterization (fsResolve : List Seg → List Seg)
    (base : List Seg) (p : PyStr) :
    (segPre (fsResolve base) (resolvedCandidate fsResolve base p) = false →
      is_safe_path fsResolve base p = false) ∧
    (is_safe_path fsResolve base p = true ↔
      (normalize_path (pyUnquote p) = [] ∨
        ((pyUnquote p).head? ≠ some '/' ∧
          segPre (fsResolve base) (resolvedCandidate fsResolve base p) = true))) := by
  by_cases hnorm : normalize_path (pyUnquote p) = []
  · constructor
    · intro hfalse
      have hjoin : pyJoin base (normalize_path (pyUnquote p)) = base := by
        rw [hnorm]
        simp [pyJoin, segsOf, pySplit]
      rw [resolvedCandidate, hjoin, segPre_refl] at hfalse
      cases hfalse
    · have htrue : is_safe_path fsResolve base p = true := by
        simp [is_safe_path, hnorm]
      rw [htrue]
      exact ⟨fun _ => Or.inl hnorm, fun _ => rfl⟩
  · by_cases hslash : (pyUnquote p).head? = some '/'
    · constructor
      · intro _
        rw [is_safe_path]
        simp only [if_neg hnorm, if_pos hslash]
      · rw [is_safe_path]
        simp only [if_neg hnorm, if_pos hslash]
        constructor
        · intro hc
          cases hc
        · rintro (hc | hc)
          · exact absurd hc hnorm
          · exact absurd hslash hc.1
    · have hunfold : is_safe_path fsResolve base p =
          segPre (fsResolve base) (resolvedCandidate fsResolve base p) := by
        rw [is_safe_path]
        simp only [if_neg hnorm, if_neg hslash]
        rfl
      constructor
      · intro hfalse
        rw [hunfold, hfalse]
      · rw [hunfold]
        constructor
        · intro htrue
          exact Or.inr ⟨hslash, htrue⟩
        · rintro (hc | hc)
          · exact absurd hc hnorm
          · exact hc.2

/-- **C1** (witness): with root `["r"]` and a filesystem in which
`r/..` resolves above the root, the request `".."` resolves outside the
root and is rejected; and a plain request `"a"` inside the root is
accepted. -/
theorem C1_witness :
    is_safe_path upResolve [['r']] "..".toList = false ∧
    is_safe_path idResolve [['r']] "a".toList = true := by
  constructor
  · exact (C1_is_safe_path_characterization upResolve [['r']] "..".toList).1 (by decide)
  · exact (C1_is_safe_path_characterization idResolve [['r']] "a".toList).2.mpr
      (Or.inr ⟨by decide, by decide⟩)

/-! ### C2: splitting a virtual path at the archive boundary -/

/-- Python `str.lower()` per character.  `'İ'` (U+0130) lowercases to the
two code points `'i'` + combining dot (U+0307), so the result is a list;
other characters map one-to-one (non-ASCII lowercasing that neither
changes length nor produces ASCII output cannot affect any of the
verified claims and is left as the identity). -/
def pyLowerChar (c : Char) : List Char :=
  if c = 'İ' then ['i', '̇'] else [c.toLower]

/-- Python `str.lower()`. -/
def pyLower (s : PyStr) : PyStr := s.flatMap pyLowerChar

/-- Python `str.find`: index of the leftmost occurrence of `needle`
starting at index `i` of the remaining suffix, else `None` (Python: -1). -/
def pyFindAux (needle : PyStr) : PyStr → Nat → Option Nat
  | [], i => if needle.isPrefixOf [] then some i else none
  | c :: t, i => if needle.isPrefixOf (c :: t) then some i else pyFindAux needle t (i + 1)

/-- Python `hay.find(needle)` with `none` for -1. -/
def pyFind (hay needle : PyStr) : Option Nat := pyFindAux needle hay 0

/-- The configured archive extensions, in the order the source iterates
them (`['.zip', '.cbz', '.rar', '.cbr']`). -/
def archiveExtsDot : List PyStr := [".zip".toList, ".cbz".toList, ".rar".toList, ".cbr".toList]

/-- The `for ext in archive_extensions` loop body of
`PathUtils.extract_archive_and_image_paths`. -/
def extractLoop (full_path : PyStr) : List PyStr → PyStr × PyStr
  | [] => (full_path, [])
  | ext :: rest =>
    let lower_path := pyLower full_path
    match pyFind lower_path (pyLower ext) with
    | some ext_pos =>
      let archive_end := ext_pos + ext.length
      (full_path.take archive_end, (full_path.drop archive_end).dropWhile (· == '/'))
    | none => extractLoop full_path rest

/-- `PathUtils.extract_archive_and_image_paths` from `app/utils/path.py`:
normalize, then for each archive extension in list order, find its first
case-insensitive occurrence anywhere in the path; on a hit, the prefix up
to the end of the extension is the archive path and the remainder (with
leading slashes stripped) the inner path. -/
def extract_archive_and_image_paths (full_path : PyStr) : PyStr × PyStr :=
  extractLoop (normalize_path full_path) archiveExtsDot

/-- The leftmost index at which `needle` occurs in `hay` (a specification-
style reformulation of `str.find` as a minimal-index search). -/
def specFindIdx (hay needle : PyStr) : Option Nat :=
  (List.range (hay.length + 1)).find? (fun i => needle.isPrefixOf (hay.drop i))

/-- Modelled from the amended specification wording: scan the configured
extension list in order (`.zip`, `.cbz`, `.rar`, `.cbr`); for the first
extension that occurs case-insensitively anywhere in the normalized path
(no path-boundary requirement), split after the leftmost occurrence of
that extension; positions are computed on the lowercased path and applied
to the original. -/
def splitArchiveSpec (path : PyStr) : PyStr × PyStr :=
  let np := normalize_path path
  let lower := pyLower np
  match archiveExtsDot.findSome? (fun ext => (specFindIdx lower ext).map (fun i => (ext, i))) with
  | some (ext, i) => (np.take (i + ext.length), (np.drop (i + ext.length)).dropWhile (· == '/'))
  | none => (np, [])

theorem find?_range_succ_shift (p : Nat → Bool) (n : Nat) (h0 : p 0 = false) :
    (List.range (n + 1)).find? p = ((List.range n).find? (p ∘ Nat.succ)).map Nat.succ := by
  rw [List.range_succ_eq_map, List.find?_cons, h0]
  exact List.find?_map Nat.succ (List.range n)

theorem pyFindAux_eq : ∀ (needle rem : PyStr) (i : Nat),
    pyFindAux needle rem i =
      ((List.range (rem.length + 1)).find?
        (fun j => needle.isPrefixOf (rem.drop j))).map (· + i)
  | needle, [], i => by
    by_cases h : needle.isPrefixOf [] <;>
      simp [pyFindAux, h, List.range_succ_eq_map, List.find?_cons]
  | needle, c :: t, i => by
    by_cases h : needle.isPrefixOf (c :: t)
    · simp [pyFindAux, h, List.range_succ_eq_map, List.find?_cons]
    · have h0 : needle.isPrefixOf (c :: t) = false := by rwa [Bool.not_eq_true] at h
      have ih := pyFindAux_eq needle t (i + 1)
      have hrhs : ((List.range ((c :: t).length + 1)).find?
          (fun j => needle.isPrefixOf ((c :: t).drop j))).map (· + i) =
          ((List.range (t.length + 1)).find?
            (fun j => needle.isPrefixOf (t.drop j))).map (· + (i + 1)) := by
        rw [show (c :: t).length + 1 = (t.length + 1) + 1 from rfl]
        rw [find?_range_succ_shift (fun j => needle.isPrefixOf ((c :: t).drop j)) _ h0]
        have hcomp : ((fun j => needle.isPrefixOf ((c :: t).drop j)) ∘ Nat.succ) =
            (fun j => needle.isPrefixOf (t.drop j)) := by
          funext j
          rfl
        rw [hcomp]
        cases (List.range (t.length + 1)).find? (fun j => needle.isPrefixOf (t.drop j)) with
        | none => rfl
        | some j =>
          show some (Nat.succ j + i) = some (j + (i + 1))
          exact congrArg some (by omega)
      rw [show pyFindAux needle (c :: t) i = pyFindAux needle t (i + 1) from by
        simp [pyFindAux, h0], ih, hrhs]

theorem pyFind_eq_specFindIdx (hay needle : PyStr) :
    pyFind hay needle = specFindIdx hay needle := by
  rw [pyFind, specFindIdx, pyFindAux_eq]
  cases (List.range (hay.length + 1)).find? (fun j => needle.isPrefixOf (hay.drop j)) with
  | none => rfl
  | some j => simp

theorem extractLoop_eq_spec (full : PyStr) : ∀ exts : List PyStr,
    (∀ e ∈ exts, pyLower e = e) →
    extractLoop full exts =
      match exts.findSome? (fun ext => (specFindIdx (pyLower full) ext).map (fun i => (ext, i))) with
      | some (ext, i) => (full.take (i + ext.length), (full.drop (i + ext.length)).dropWhile (· == '/'))
      | none => (full, [])
  | [], _ => rfl
  | ext :: rest, hl => by
    have hext : pyLower ext = ext := hl ext (List.mem_cons_self _ _)
    have ih := extractLoop_eq_spec full rest (fun e he => hl e (List.mem_cons_of_mem ext he))
    rw [extractLoop]
    simp only [pyFind_eq_specFindIdx, hext, List.findSome?_cons]
    cases hf : specFindIdx (pyLower full) ext with
    | some i => simp
    | none => simpa using ih

/-- **C2** (counterexample): the split does not choose the leftmost
archive extension in the path (it chooses the first extension in the
configured list order that occurs anywhere), and it does not require the
extension to be followed by a path boundary.  `"a.rar/b.zip/c.jpg"` is
split at `.zip` (list order) although `.rar` occurs further left, and
`"a.zipx/b.jpg"` is split inside the name `a.zipx`. -/
theorem C2_counterexample :
    extract_archive_and_image_paths "a.rar/b.zip/c.jpg".toList =
      ("a.rar/b.zip".toList, "c.jpg".toList) ∧
    extract_archive_and_image_paths "a.rar/b.zip/c.jpg".toList ≠
      ("a.rar".toList, "b.zip/c.jpg".toList) ∧
    extract_archive_and_image_paths "a.zipx/b.jpg".toList =
      ("a.zip".toList, "x/b.jpg".toList) := by
  refine ⟨by decide, by decide, by decide⟩

/-- **C2** (amended): for every path, the split equals the specification
function `splitArchiveSpec`: the extensions are tried in the configured
order `.zip, .cbz, .rar, .cbr` and the first one that occurs
case-insensitively anywhere in the normalized path wins, split at its
leftmost occurrence, with no boundary requirement; the remainder is
returned with leading separators stripped, and a path with no archive
extension maps to `(path, "")`.  The specification's concrete examples
hold unchanged. -/
theorem C2_split_archive_boundary :
    (∀ p : PyStr, extract_archive_and_image_paths p = splitArchiveSpec p) ∧
    extract_archive_and_image_paths "Series/Vol.zip/page1.jpg".toList =
      ("Series/Vol.zip".toList, "page1.jpg".toList) ∧
    extract_archive_and_image_paths "Series/cover.jpg".toList =
      ("Series/cover.jpg".toList, "".toList) ∧
    extract_archive_and_image_paths "a/B.CBZ/x.png".toList =
      ("a/B.CBZ".toList, "x.png".toList) ∧
    extract_archive_and_image_paths "a.zip/b.zip/c.jpg".toList =
      ("a.zip".toList, "b.zip/c.jpg".toList) := by
  refine ⟨?_, by decide, by decide, by decide, by decide⟩
  intro p
  rw [extract_archive_and_image_paths, splitArchiveSpec]
  exact extractLoop_eq_spec (normalize_path p) archiveExtsDot (by decide)

/-! ### C3: the encoding fallback chain never fails -/

/-- `bytes.decode('utf-8', errors='ignore')` with the exception channel of
the embedding made explicit: the call never raises for `bytes` input. -/
def pyDecodeUtf8Ignore (bs : List Nat) : Except Unit PyStr := .ok (utf8IgnoreDecode bs)

/-- `bytes.decode('latin1')` with the exception channel made explicit:
latin-1 maps every byte value to a code point, so it never raises. -/
def latin1DecodeE (bs : List Nat) : Except Unit PyStr := .ok (latin1Decode bs)

/-- The `for encoding in unique_encodings: try ... except ... continue`
loop of `EncodingUtils.safe_decode`: first codec that decodes wins.  The
codecs themselves (EUC-KR, CP949, ...) are external C libraries and enter
as the oracle `codecOf`, which may fail arbitrarily
(`UnicodeDecodeError`/`LookupError` are both `.error`). -/
def tryEncodings (codecOf : String → List Nat → Except Unit PyStr) :
    List String → List Nat → Option PyStr
  | [], _ => none
  | e :: rest, t =>
    match codecOf e t with
    | .ok d => some d
    | .error _ => tryEncodings codecOf rest t

/-- The order-preserving de-duplication (`seen` set) of
`EncodingUtils.safe_decode`. -/
def dedupAux : List String → List String → List String
  | _, [] => []
  | seen, e :: rest => if e ∈ seen then dedupAux seen rest else e :: dedupAux (e :: seen) rest

/-- `EncodingUtils.safe_decode` from `app/utils/encoding.py`: try the
configured source encoding, then the fallback list (de-duplicated, order
preserved); if every codec fails, decode as UTF-8 ignoring errors, and as
a last resort decode as latin-1.  (The `isinstance(text, str)` early
return does not apply: the input here is bytes by type.) -/
def safe_decode (codecOf : String → List Nat → Except Unit PyStr)
    (source_encoding : String) (fallback_encodings : List String)
    (text : List Nat) : Except Unit PyStr :=
  if text = [] then .ok []
  else
    let encodings_to_try := source_encoding :: fallback_encodings
    let unique_encodings := dedupAux [] encodings_to_try
    match tryEncodings codecOf unique_encodings text with
    | some decoded => .ok decoded
    | none =>
      match pyDecodeUtf8Ignore text with
      | .ok result => .ok result
      | .error _ => latin1DecodeE text

/-- `EncodingUtils.detect_and_convert_encoding` from
`app/utils/encoding.py`.  `chardet.detect` is the oracle `detect`: it may
raise (caught by the outer `except Exception`), return no encoding, or
return an encoding with a confidence; a detection above confidence 0.7 is
tried first and its decode errors are swallowed, after which the chain
falls back to `safe_decode` with the configured fallback encodings. -/
def detect_and_convert_encoding
    (detect : List Nat → Except Unit (Option (String × ℚ)))
    (codecOf : String → List Nat → Except Unit PyStr)
    (source_encoding : String) (fallback_encodings : List String)
    (text : List Nat) : Except Unit PyStr :=
  if text = [] then .ok []
  else
    let viaDetect : Option PyStr :=
      match detect text with
      | .error _ => none
      | .ok none => none
      | .ok (some (encoding, confidence)) =>
        if confidence > (7 : ℚ) / 10 then
          match codecOf encoding text with
          | .ok s => some s
          | .error _ => none
        else none
    match viaDetect with
    | some s => .ok s
    | none => safe_decode codecOf source_encoding fallback_encodings text

theorem safe_decode_total (codecOf : String → List Nat → Except Unit PyStr)
    (src : String) (fbs : List String) (text : List Nat) :
    ∃ s, safe_decode codecOf src fbs text = .ok s := by
  rw [safe_decode]
  by_cases ht : text = []
  · exact ⟨[], by rw [if_pos ht]⟩
  · rw [if_neg ht]
    cases htry : tryEncodings codecOf (dedupAux [] (src :: fbs)) text with
    | some d => exact ⟨d, by simp [htry]⟩
    | none => exact ⟨utf8IgnoreDecode text, by simp [htry, pyDecodeUtf8Ignore]⟩

/-- **C3** (confirmed): for every byte sequence, every behaviour of the
statistical detector and every behaviour of the configured codecs, the
filename-decoding chain returns a string and never raises; both of its
final resorts (UTF-8 with `errors='ignore'`, then latin-1, a single-byte
codec accepting every byte value) are themselves total. -/
theorem C3_decode_never_fails :
    (∀ (detect : List Nat → Except Unit (Option (String × ℚ)))
       (codecOf : String → List Nat → Except Unit PyStr)
       (src : String) (fbs : List String) (text : List Nat),
      ∃ s, detect_and_convert_encoding detect codecOf src fbs text = .ok s) ∧
    (∀ codecOf src fbs text, ∃ s, safe_decode codecOf src fbs text = .ok s) ∧
    (∀ text, pyDecodeUtf8Ignore text = .ok (utf8IgnoreDecode text)) ∧
    (∀ text, latin1DecodeE text = .ok (latin1Decode text)) := by
  refine ⟨?_, safe_decode_total, fun _ => rfl, fun _ => rfl⟩
  intro detect codecOf src fbs text
  rw [detect_and_convert_encoding]
  by_cases ht : text = []
  · exact ⟨[], by rw [if_pos ht]⟩
  · rw [if_neg ht]
    cases hdet : detect text with
    | error e => simpa [hdet] using safe_decode_total codecOf src fbs text
    | ok o =>
      cases o with
      | none => simpa [hdet] using safe_decode_total codecOf src fbs text
      | some pr =>
        by_cases hconf : pr.2 > (7 : ℚ) / 10
        · cases hdec : codecOf pr.1 text with
          | ok s => exact ⟨s, by simp [hdet, hconf, hdec]⟩
          | error e => simpa [hdet, hconf, hdec] using safe_decode_total codecOf src fbs text
        · simpa [hdet, hconf] using safe_decode_total codecOf src fbs text

/-! ### A Boolean lexicographic string order (Python `list.sort` on `str`)

Defined directly so that sortedness facts and concrete evaluations do not
depend on library order instances. -/

def strLe : PyStr → PyStr → Bool
  | [], _ => true
  | _ :: _, [] => false
  | a :: as, b :: bs => if a = b then strLe as bs else decide (a < b)

theorem strLe_trans : ∀ a b c : PyStr, strLe a b = true → strLe b c = true →
    strLe a c = true
  | [], _, _, _, _ => rfl
  | _ :: _, [], _, h, _ => by cases h
  | _ :: _, _ :: _, [], _, h => by cases h
  | a :: as, b :: bs, c :: cs, h1, h2 => by
    by_cases hab : a = b
    · subst hab
      rw [strLe, if_pos rfl] at h1
      by_cases hac : a = c
      · subst hac
        rw [strLe, if_pos rfl] at h2 ⊢
        exact strLe_trans as bs cs h1 h2
      · rw [strLe, if_neg hac] at h2 ⊢
        exact h2
    · rw [strLe, if_neg hab, decide_eq_true_eq] at h1
      by_cases hbc : b = c
      · subst hbc
        rw [strLe, if_neg hab, decide_eq_true_eq]
        exact h1
      · rw [strLe, if_neg hbc, decide_eq_true_eq] at h2
        have hac : a ≠ c := fun he => absurd (he ▸ h1) (not_lt_of_gt h2)
        rw [strLe, if_neg hac, decide_eq_true_eq]
        exact lt_trans h1 h2

theorem strLe_total : ∀ a b : PyStr, (strLe a b || strLe b a) = true
  | [], _ => rfl
  | _ :: _, [] => rfl
  | a :: as, b :: bs => by
    by_cases hab : a = b
    · subst hab
      rw [strLe, strLe, if_pos rfl, if_pos rfl]
      exact strLe_total as bs
    · rw [strLe, strLe, if_neg hab, if_neg (Ne.symm hab)]
      rcases lt_or_gt_of_ne hab with h | h
      · simp [h]
      · simp [h]


/-- Insertion of one element into a sorted list (helper of `pySort`). -/
def insertLe (le : PyStr → PyStr → Bool) (x : PyStr) : List PyStr → List PyStr
  | [] => [x]
  | y :: ys => if le x y then x :: y :: ys else y :: insertLe le x ys

/-- A stable comparison sort modelling Python's `list.sort()` (Timsort is
a stable comparison sort; any stable sort computes the same list). -/
def pySort (le : PyStr → PyStr → Bool) : List PyStr → List PyStr
  | [] => []
  | x :: xs => insertLe le x (pySort le xs)

theorem mem_insertLe (le : PyStr → PyStr → Bool) (x z : PyStr) :
    ∀ l, z ∈ insertLe le x l → z = x ∨ z ∈ l
  | [], h => Or.inl (List.mem_singleton.mp h)
  | y :: ys, h => by
    by_cases hxy : le x y
    · rw [insertLe, if_pos hxy] at h
      rcases List.mem_cons.mp h with h1 | h1
      · exact Or.inl h1
      · exact Or.inr h1
    · rw [insertLe, if_neg hxy] at h
      rcases List.mem_cons.mp h with h1 | h1
      · exact Or.inr (by rw [h1]; exact List.mem_cons_self _ _)
      · rcases mem_insertLe le x z ys h1 with h2 | h2
        · exact Or.inl h2
        · exact Or.inr (List.mem_cons_of_mem _ h2)

theorem insertLe_perm (le : PyStr → PyStr → Bool) (x : PyStr) :
    ∀ l, (insertLe le x l).Perm (x :: l)
  | [] => List.Perm.refl _
  | y :: ys => by
    by_cases hxy : le x y
    · rw [insertLe, if_pos hxy]
    · rw [insertLe, if_neg hxy]
      exact ((insertLe_perm le x ys).cons y).trans (List.Perm.swap x y ys)

theorem pySort_perm (le : PyStr → PyStr → Bool) : ∀ l, (pySort le l).Perm l
  | [] => List.Perm.refl _
  | x :: xs =>
    (insertLe_perm le x (pySort le xs)).trans ((pySort_perm le xs).cons x)

theorem pairwise_insertLe (le : PyStr → PyStr → Bool)
    (htrans : ∀ a b c, le a b = true → le b c = true → le a c = true)
    (htot : ∀ a b, (le a b || le b a) = true) (x : PyStr) :
    ∀ l, List.Pairwise (fun a b => le a b = true) l →
      List.Pairwise (fun a b => le a b = true) (insertLe le x l)
  | [], _ => List.pairwise_singleton _ x
  | y :: ys, h => by
    rcases List.pairwise_cons.mp h with ⟨hy, hys⟩
    by_cases hxy : le x y
    · rw [insertLe, if_pos hxy]
      refine List.pairwise_cons.mpr ⟨?_, h⟩
      intro z hz
      rcases List.mem_cons.mp hz with rfl | hz1
      · exact hxy
      · exact htrans x y z hxy (hy z hz1)
    · rw [insertLe, if_neg hxy]
      have hyx : le y x = true := by
        have := htot x y
        rw [Bool.not_eq_true] at hxy
        rwa [hxy, Bool.false_or] at this
      refine List.pairwise_cons.mpr ⟨?_, pairwise_insertLe le htrans htot x ys hys⟩
      intro z hz
      rcases mem_insertLe le x z ys hz with rfl | hz1
      · exact hyx
      · exact hy z hz1

theorem pySort_pairwise (le : PyStr → PyStr → Bool)
    (htrans : ∀ a b c, le a b = true → le b c = true → le a c = true)
    (htot : ∀ a b, (le a b || le b a) = true) :
    ∀ l, List.Pairwise (fun a b => le a b = true) (pySort le l)
  | [] => List.Pairwise.nil
  | x :: xs => pairwise_insertLe le htrans htot x (pySort le xs)
      (pySort_pairwise le htrans htot xs)

theorem mem_pySort (le : PyStr → PyStr → Bool) (z : PyStr) :
    ∀ l, z ∈ pySort le l → z ∈ l
  | [], h => h
  | x :: xs, h => by
    rcases mem_insertLe le x z (pySort le xs) h with rfl | h1
    · exact List.mem_cons_self _ _
    · exact List.mem_cons_of_mem _ (mem_pySort le z xs h1)

/-! ### Settings (`app/models/config.py`) and filename classification -/

/-- The configuration fields the resolver core consumes, from
`app/models/config.py`. -/
structure Settings : Type where
  hidden_files : List PyStr
  hidden_patterns : List PyStr
  image_extensions : List PyStr
  archive_extensions : List PyStr

/-- The defaults declared in `Settings` (`config.py`). -/
def defaultSettings : Settings where
  hidden_files := [".".toList, "..".toList, "@eaDir".toList, "Thumbs.db".toList,
    ".DS_Store".toList, ".thumbnails".toList]
  hidden_patterns := ["__MACOSX".toList]
  image_extensions := ["jpg".toList, "jpeg".toList, "gif".toList, "png".toList,
    "tif".toList, "tiff".toList, "bmp".toList]
  archive_extensions := ["zip".toList, "cbz".toList, "rar".toList, "cbr".toList]

/-- `pathlib.PurePath.name`: the last non-empty, non-`'.'` component. -/
def pathlibName (path : PyStr) : Seg :=
  (((pySplit path).filter (fun s => !s.isEmpty && s ≠ ['.']))).getLast?.getD []

/-- `pathlib.PurePath.suffix`: the extension of the final component,
including the dot; empty for dot-files (`.hidden`), trailing dots and
names without a dot. -/
def pySuffix (filename : PyStr) : PyStr :=
  let name := pathlibName filename
  match name.reverse.findIdx? (fun c => c == '.') with
  | none => []
  | some k =>
    let i := name.length - 1 - k
    if 0 < i ∧ i < name.length - 1 then name.drop i else []

example : pySuffix "a/b/page1.JPG".toList = ".JPG".toList := by decide
example : pySuffix ".hidden".toList = "".toList := by decide
example : pySuffix "a.".toList = "".toList := by decide
example : pySuffix "a.b.c".toList = ".c".toList := by decide

/-- Python `needle in hay` on strings. -/
def containsSub (hay needle : PyStr) : Bool := (pyFind hay needle).isSome

/-- `PathUtils.get_file_extension`: `Path(filename).suffix.lower().lstrip('.')`. -/
def get_file_extension (filename : PyStr) : PyStr :=
  (pyLower (pySuffix filename)).dropWhile (· == '.')

/-- `Settings.is_image_file`. -/
def Settings.is_image_file (S : Settings) (filename : PyStr) : Bool :=
  S.image_extensions.contains ((pyLower (pySuffix filename)).dropWhile (· == '.'))

/-- `Settings.is_archive_file`. -/
def Settings.is_archive_file (S : Settings) (filename : PyStr) : Bool :=
  S.archive_extensions.contains ((pyLower (pySuffix filename)).dropWhile (· == '.'))

/-- `Settings.is_supported_file`. -/
def Settings.is_supported_file (S : Settings) (filename : PyStr) : Bool :=
  S.is_image_file filename || S.is_archive_file filename

/-- `Settings.is_hidden_file`: exact membership in the hidden-name list,
or any hidden pattern occurring as a substring. -/
def Settings.is_hidden_file (S : Settings) (filename : PyStr) : Bool :=
  S.hidden_files.contains filename ||
    S.hidden_patterns.any (fun pat => containsSub filename pat)

example : defaultSettings.is_hidden_file ".DS_Store".toList = true := by decide
example : defaultSettings.is_hidden_file "__MACOSX_x".toList = true := by decide
example : defaultSettings.is_hidden_file ".hidden".toList = false := by decide
example : defaultSettings.is_image_file "page1.jpg".toList = true := by decide
example : defaultSettings.is_image_file ".hidden".toList = false := by decide
example : defaultSettings.is_image_file "info.txt".toList = false := by decide

/-! ### ArchiveService (`app/services/archive.py`) -/

/-- How opening/iterating a container can fail: `badFile` is
`zipfile.BadZipFile` / `rarfile.BadRarFile` (malformed container), `other`
is any other exception. -/
inductive OpenErr : Type
  | badFile
  | other
deriving DecidableEq

/-- An archive member as surfaced by `zipfile`/`rarfile` `infolist()`. -/
structure ZipEntry : Type where
  filename : PyStr
  is_dir : Bool
  data : List Nat
deriving DecidableEq

/-- The `ArchiveError` raised by the service, split by cause: `corrupted`
for a malformed container, `processing` for any other wrapped failure. -/
inductive ArchiveFailure : Type
  | corrupted
  | processing
deriving DecidableEq

/-- The filesystem and container oracles `ArchiveService` talks to:
existence of the archive file, the result of opening it as ZIP or RAR,
and whether the optional `rarfile` library is importable
(`RARFILE_AVAILABLE`). -/
structure AFS : Type where
  pathExists : List Seg → Bool
  zipOpen : List Seg → Except OpenErr (List ZipEntry)
  rarAvailable : Bool
  rarOpen : List Seg → Except OpenErr (List ZipEntry)

/-- `EncodingUtils.convert_filename_encoding` on the `str` branch, the
only branch reachable from `zipfile`/`rarfile` entry names (which are
already `str`).  The branch validates by re-encoding as UTF-8, which in
CPython fails only for lone surrogates — not representable in a Lean
`Char` (a Unicode scalar value) — so the name passes through unchanged. -/
def convert_filename_encoding (filename : PyStr) : PyStr :=
  if filename = [] then [] else filename

/-- The shared entry-processing loop of `_list_zip_contents` /
`_list_rar_contents`: skip directories, decode the name, keep images,
then `image_files.sort()` (plain lexicographic on code points). -/
def processEntries (S : Settings) (entries : List ZipEntry) : List PyStr :=
  pySort strLe (((entries.filter (fun e => !e.is_dir)).map
      (fun e => convert_filename_encoding e.filename)).filter
    (fun n => S.is_image_file n))

/-- `ArchiveService._list_zip_contents`: `BadZipFile` becomes an
`ArchiveError` ("corrupted ZIP"), any other exception an `ArchiveError`
("processing failed"); otherwise the filtered, sorted image names. -/
def list_zip_contents (S : Settings) (openResult : Except OpenErr (List ZipEntry)) :
    Except ArchiveFailure (List PyStr) :=
  match openResult with
  | .error .badFile => .error .corrupted
  | .error .other => .error .processing
  | .ok entries => .ok (processEntries S entries)

/-- `ArchiveService._list_rar_contents`: returns `[]` without touching the
file when `rarfile` is not installed. -/
def list_rar_contents (S : Settings) (fs : AFS) (archive_path : List Seg) :
    Except ArchiveFailure (List PyStr) :=
  if !fs.rarAvailable then .ok []
  else
    match fs.rarOpen archive_path with
    | .error .badFile => .error .corrupted
    | .error .other => .error .processing
    | .ok entries => .ok (processEntries S entries)

/-- `ArchiveService.list_archive_contents`: missing file yields `[]`,
then dispatch on the (lower-cased) file extension; unsupported extensions
yield `[]`.  The outer `except` re-raises `ArchiveError` unchanged and
wraps anything else, which the inner functions already produce. -/
def list_archive_contents (S : Settings) (fs : AFS) (archive_path : List Seg) :
    Except ArchiveFailure (List PyStr) :=
  if !fs.pathExists archive_path then .ok []
  else
    let ext := get_file_extension (archive_path.getLast?.getD [])
    if [("zip".toList : PyStr), "cbz".toList].contains ext then
      list_zip_contents S (fs.zipOpen archive_path)
    else if [("rar".toList : PyStr), "cbr".toList].contains ext then
      list_rar_contents S fs archive_path
    else .ok []

/-- `ArchiveService._extract_from_zip`: first non-directory entry whose
decoded name ends with (or equals) the requested inner path, in
enumeration order; `None` on a malformed container or any other error. -/
def extract_from_zip (openResult : Except OpenErr (List ZipEntry)) (file_path : PyStr) :
    Option (List Nat) :=
  match openResult with
  | .error _ => none
  | .ok entries =>
    (entries.find? (fun e => !e.is_dir &&
      (file_path.isSuffixOf (convert_filename_encoding e.filename) ||
        convert_filename_encoding e.filename == file_path))).map (fun e => e.data)

/-- `ArchiveService._extract_from_rar`: `None` when `rarfile` is missing,
otherwise like the ZIP variant. -/
def extract_from_rar (fs : AFS) (archive_path : List Seg) (file_path : PyStr) :
    Option (List Nat) :=
  if !fs.rarAvailable then none
  else
    match fs.rarOpen archive_path with
    | .error _ => none
    | .ok entries =>
      (entries.find? (fun e => !e.is_dir &&
        (file_path.isSuffixOf (convert_filename_encoding e.filename) ||
          convert_filename_encoding e.filename == file_path))).map (fun e => e.data)

/-- `ArchiveService.extract_file_from_archive`: total at its interface —
every failure (missing file, unsupported extension, corrupted container,
no match) collapses to `None`; the outer `except Exception` returns
`None` as well. -/
def extract_file_from_archive (fs : AFS) (archive_path : List Seg) (file_path : PyStr) :
    Option (List Nat) :=
  if !fs.pathExists archive_path then none
  else
    let ext := get_file_extension (archive_path.getLast?.getD [])
    if [("zip".toList : PyStr), "cbz".toList].contains ext then
      extract_from_zip (fs.zipOpen archive_path) file_path
    else if [("rar".toList : PyStr), "cbr".toList].contains ext then
      extract_from_rar fs archive_path file_path
    else none

/-! ### C4, C5, C10: archive service behaviour -/

/-- A filesystem where a corrupted `.rar` exists but the `rarfile` library
is not installed. -/
def fsRarNoLib : AFS where
  pathExists := fun _ => true
  zipOpen := fun _ => .error .other
  rarAvailable := false
  rarOpen := fun _ => .error .badFile

/-- A filesystem with an existing corrupted ZIP container. -/
def fsZipCorrupt : AFS where
  pathExists := fun _ => true
  zipOpen := fun _ => .error .badFile
  rarAvailable := true
  rarOpen := fun _ => .error .badFile

/-- A filesystem with no files at all. -/
def fsEmpty : AFS where
  pathExists := fun _ => false
  zipOpen := fun _ => .error .other
  rarAvailable := true
  rarOpen := fun _ => .error .other

/-- **C4** (counterexample): an existing, malformed `.rar` container is
listed as the empty list — not a CorruptedArchive error — when the
`rarfile` library is unavailable, because `_list_rar_contents` returns
`[]` before opening the file. -/
theorem C4_counterexample :
    list_archive_contents defaultSettings fsRarNoLib [("bad.rar".toList : Seg)] =
      .ok [] := by decide

/-- **C4** (amended): listing a missing archive yields an empty list (not
an error); listing an existing malformed container raises
CorruptedArchive provided the container's library is available — always
for the zip family, and for the rar family only when `rarfile` is
installed (otherwise the result degrades to an empty list); an
unsupported extension yields an empty list. -/
theorem C4_archive_listing_errors (S : Settings) (fs : AFS) (p : List Seg) :
    (fs.pathExists p = false → list_archive_contents S fs p = .ok []) ∧
    (fs.pathExists p = true →
      [("zip".toList : PyStr), "cbz".toList].contains
        (get_file_extension (p.getLast?.getD [])) = true →
      fs.zipOpen p = .error .badFile →
      list_archive_contents S fs p = .error .corrupted) ∧
    (fs.pathExists p = true →
      [("zip".toList : PyStr), "cbz".toList].contains
        (get_file_extension (p.getLast?.getD [])) = false →
      [("rar".toList : PyStr), "cbr".toList].contains
        (get_file_extension (p.getLast?.getD [])) = true →
      fs.rarAvailable = true →
      fs.rarOpen p = .error .badFile →
      list_archive_contents S fs p = .error .corrupted) ∧
    (fs.pathExists p = true →
      [("zip".toList : PyStr), "cbz".toList].contains
        (get_file_extension (p.getLast?.getD [])) = false →
      [("rar".toList : PyStr), "cbr".toList].contains
        (get_file_extension (p.getLast?.getD [])) = true →
      fs.rarAvailable = false →
      list_archive_contents S fs p = .ok []) ∧
    (fs.pathExists p = true →
      [("zip".toList : PyStr), "cbz".toList].contains
        (get_file_extension (p.getLast?.getD [])) = false →
      [("rar".toList : PyStr), "cbr".toList].contains
        (get_file_extension (p.getLast?.getD [])) = false →
      list_archive_contents S fs p = .ok []) := by
  refine ⟨?_, ?_, ?_, ?_, ?_⟩
  · intro h
    simp only [list_archive_contents]
    rw [if_pos (by rw [h]; rfl)]
  · intro h hz hopen
    simp only [list_archive_contents]
    rw [if_neg (by rw [h]; simp), if_pos hz, hopen]
    rfl
  · intro h hz hr havail hopen
    simp only [list_archive_contents]
    rw [if_neg (by rw [h]; simp), if_neg (by rw [hz]; simp), if_pos hr]
    simp only [list_rar_contents]
    rw [if_neg (by rw [havail]; simp), hopen]
  · intro h hz hr havail
    simp only [list_archive_contents]
    rw [if_neg (by rw [h]; simp), if_neg (by rw [hz]; simp), if_pos hr]
    simp only [list_rar_contents]
    rw [if_pos (by rw [havail]; rfl)]
  · intro h hz hr
    simp only [list_archive_contents]
    rw [if_neg (by rw [h]; simp), if_neg (by rw [hz]; simp), if_neg (by rw [hr]; simp)]

/-- **C4** (witness): concrete instances — a corrupted existing ZIP is a
CorruptedArchive error, and a missing archive is the empty list. -/
theorem C4_witness :
    list_archive_contents defaultSettings fsZipCorrupt [("bad.zip".toList : Seg)] =
      .error .corrupted ∧
    list_archive_contents defaultSettings fsEmpty [("gone.zip".toList : Seg)] = .ok [] :=
  ⟨(C4_archive_listing_errors defaultSettings fsZipCorrupt [("bad.zip".toList : Seg)]).2.1
      (by decide) (by decide) rfl,
    (C4_archive_listing_errors defaultSettings fsEmpty [("gone.zip".toList : Seg)]).1 rfl⟩

/-- **C5** (confirmed): listing a readable archive keeps exactly the
non-directory entries whose decoded name has an image extension, and
returns them sorted by decoded name in plain lexicographic (code point)
order.  The second concrete case shows the order is not natural/numeric:
`page10.jpg` sorts before `page2.jpg`. -/
theorem C5_archive_listing_contents :
    (∀ (S : Settings) (entries : List ZipEntry),
      ∃ l, list_zip_contents S (.ok entries) = .ok l ∧
        List.Pairwise (fun a b : PyStr => strLe a b = true) l ∧
        l.Perm (((entries.filter (fun e => !e.is_dir)).map
          (fun e => convert_filename_encoding e.filename)).filter
            (fun n => S.is_image_file n)) ∧
        ∀ n ∈ l, S.is_image_file n = true) ∧
    list_zip_contents defaultSettings (.ok
      [⟨"page1.jpg".toList, false, []⟩, ⟨"page2.png".toList, false, []⟩,
       ⟨"info.txt".toList, false, []⟩, ⟨".hidden".toList, false, []⟩]) =
      .ok ["page1.jpg".toList, "page2.png".toList] ∧
    list_zip_contents defaultSettings (.ok
      [⟨"page2.jpg".toList, false, []⟩, ⟨"page10.jpg".toList, false, []⟩]) =
      .ok ["page10.jpg".toList, "page2.jpg".toList] := by
  refine ⟨?_, by decide, by decide⟩
  intro S entries
  refine ⟨processEntries S entries, rfl, ?_, ?_, ?_⟩
  · simp only [processEntries]
    exact pySort_pairwise strLe strLe_trans strLe_total _
  · simp only [processEntries]
    exact pySort_perm strLe _
  · intro n hn
    simp only [processEntries] at hn
    exact (List.mem_filter.mp (mem_pySort strLe n _ hn)).2

/-- **C5** (witness): the general part applied to the spec's ZIP example. -/
theorem C5_witness :
    ∃ l, list_zip_contents defaultSettings (.ok
      [⟨"page1.jpg".toList, false, []⟩, ⟨"page2.png".toList, false, []⟩,
       ⟨"info.txt".toList, false, []⟩, ⟨".hidden".toList, false, []⟩]) = .ok l ∧
      List.Pairwise (fun a b : PyStr => strLe a b = true) l ∧
      l.Perm ((([⟨"page1.jpg".toList, false, []⟩, ⟨"page2.png".toList, false, []⟩,
        ⟨"info.txt".toList, false, []⟩,
        (⟨".hidden".toList, false, []⟩ : ZipEntry)].filter (fun e => !e.is_dir)).map
          (fun e => convert_filename_encoding e.filename)).filter
            (fun n => defaultSettings.is_image_file n)) ∧
      ∀ n ∈ l, defaultSettings.is_image_file n = true :=
  C5_archive_listing_contents.1 defaultSettings _

/-- A concrete archive filesystem: one ZIP whose members are a directory,
a nested image, and a top-level image. -/
def fsZipDemo : AFS where
  pathExists := fun _ => true
  zipOpen := fun _ => .ok [⟨"dir/".toList, true, [1]⟩,
    ⟨"dir/page1.jpg".toList, false, [2]⟩, ⟨"page1.jpg".toList, false, [3]⟩]
  rarAvailable := true
  rarOpen := fun _ => .error .other

/-- **C10** (confirmed): extraction is total at its interface — every
failure (missing archive, unsupported extension, corrupted or otherwise
unreadable container, library missing for rar) yields `none`, never an
error; on a readable container the result is the data of the first
non-directory entry, in enumeration order, whose decoded name ends with
(or equals) the requested inner name, and `none` when nothing matches. -/
theorem C10_extract_total (fs : AFS) (p : List Seg) (inner : PyStr) :
    (fs.pathExists p = false → extract_file_from_archive fs p inner = none) ∧
    (fs.pathExists p = true →
      [("zip".toList : PyStr), "cbz".toList].contains
        (get_file_extension (p.getLast?.getD [])) = false →
      [("rar".toList : PyStr), "cbr".toList].contains
        (get_file_extension (p.getLast?.getD [])) = false →
      extract_file_from_archive fs p inner = none) ∧
    (∀ err, fs.pathExists p = true →
      [("zip".toList : PyStr), "cbz".toList].contains
        (get_file_extension (p.getLast?.getD [])) = true →
      fs.zipOpen p = .error err →
      extract_file_from_archive fs p inner = none) ∧
    (∀ entries, fs.pathExists p = true →
      [("zip".toList : PyStr), "cbz".toList].contains
        (get_file_extension (p.getLast?.getD [])) = true →
      fs.zipOpen p = .ok entries →
      extract_file_from_archive fs p inner =
        (entries.find? (fun e => !e.is_dir &&
          (inner.isSuffixOf (convert_filename_encoding e.filename) ||
            convert_filename_encoding e.filename == inner))).map (fun e => e.data)) ∧
    (fs.pathExists p = true →
      [("zip".toList : PyStr), "cbz".toList].contains
        (get_file_extension (p.getLast?.getD [])) = false →
      [("rar".toList : PyStr), "cbr".toList].contains
        (get_file_extension (p.getLast?.getD [])) = true →
      fs.rarAvailable = false →
      extract_file_from_archive fs p inner = none) ∧
    (∀ err, fs.pathExists p = true →
      [("zip".toList : PyStr), "cbz".toList].contains
        (get_file_extension (p.getLast?.getD [])) = false →
      [("rar".toList : PyStr), "cbr".toList].contains
        (get_file_extension (p.getLast?.getD [])) = true →
      fs.rarAvailable = true →
      fs.rarOpen p = .error err →
      extract_file_from_archive fs p inner = none) ∧
    (∀ entries, fs.pathExists p = true →
      [("zip".toList : PyStr), "cbz".toList].contains
        (get_file_extension (p.getLast?.getD [])) = false →
      [("rar".toList : PyStr), "cbr".toList].contains
        (get_file_extension (p.getLast?.getD [])) = true →
      fs.rarAvailable = true →
      fs.rarOpen p = .ok entries →
      extract_file_from_archive fs p inner =
        (entries.find? (fun e => !e.is_dir &&
          (inner.isSuffixOf (convert_filename_encoding e.filename) ||
            convert_filename_encoding e.filename == inner))).map (fun e => e.data)) := by
  refine ⟨?_, ?_, ?_, ?_, ?_, ?_, ?_⟩
  · intro h
    simp only [extract_file_from_archive]
    rw [if_pos (by rw [h]; rfl)]
  · intro h hz hr
    simp only [extract_file_from_archive]
    rw [if_neg (by rw [h]; simp), if_neg (by rw [hz]; simp), if_neg (by rw [hr]; simp)]
  · intro err h hz hopen
    simp only [extract_file_from_archive]
    rw [if_neg (by rw [h]; simp), if_pos hz, hopen]
    rfl
  · intro entries h hz hopen
    simp only [extract_file_from_archive]
    rw [if_neg (by rw [h]; simp), if_pos hz, hopen]
    rfl
  · intro h hz hr havail
    simp only [extract_file_from_archive]
    rw [if_neg (by rw [h]; simp), if_neg (by rw [hz]; simp), if_pos hr]
    simp only [extract_from_rar]
    rw [if_pos (by rw [havail]; rfl)]
  · intro err h hz hr havail hopen
    simp only [extract_file_from_archive]
    rw [if_neg (by rw [h]; simp), if_neg (by rw [hz]; simp), if_pos hr]
    simp only [extract_from_rar]
    rw [if_neg (by rw [havail]; simp), hopen]
  · intro entries h hz hr havail hopen
    simp only [extract_file_from_archive]
    rw [if_neg (by rw [h]; simp), if_neg (by rw [hz]; simp), if_pos hr]
    simp only [extract_from_rar]
    rw [if_neg (by rw [havail]; simp), hopen]

/-- **C10** (witness): concrete instances — the nested `dir/page1.jpg`
wins the suffix match (first non-directory entry in enumeration order)
over the later exact match, and a missing archive extracts to `none`. -/
theorem C10_witness :
    extract_file_from_archive fsZipDemo [("v.zip".toList : Seg)] "page1.jpg".toList =
      some [2] ∧
    extract_file_from_archive fsEmpty [("v.zip".toList : Seg)] "x".toList = none := by
  constructor
  · have h := (C10_extract_total fsZipDemo [("v.zip".toList : Seg)] "page1.jpg".toList).2.2.2.1
      _ rfl (by decide) rfl
    rw [h]
    decide
  · exact (C10_extract_total fsEmpty [("v.zip".toList : Seg)] "x".toList).1 rfl

/-! ### FileSystemService (`app/services/filesystem.py`) — C6 and C8 -/

/-- The filesystem oracles `FileSystemService` consults: `Path.resolve`
(for the safety check), existence/kind tests, and `os.listdir` (which may
raise `PermissionError` or any other `OSError`: the `.error` case). -/
structure DFS : Type where
  resolve : List Seg → List Seg
  pathExists : List Seg → Bool
  isDir : List Seg → Bool
  isFile : List Seg → Bool
  listdir : List Seg → Except Unit (List Seg)

/-- `FileSystemService._is_entry_supported`: hidden names are dropped,
directories pass, plain files pass only with a supported (image or
archive) extension, anything else (broken symlinks, special files) is
dropped; its `try/except` has no counterpart because the oracles are
total. -/
def is_entry_supported (S : Settings) (fs : DFS) (entry_path : List Seg)
    (entry_name : Seg) : Bool :=
  if S.is_hidden_file entry_name then false
  else if fs.isDir entry_path then true
  else if fs.isFile entry_path then S.is_supported_file entry_name
  else false

/-- The Python sort key `lambda x: (not Path(full_path / x).is_dir(), x.lower())`. -/
def dirKey (fs : DFS) (full : List Seg) (x : Seg) : Bool × PyStr :=
  (!fs.isDir (full ++ [x]), pyLower x)

/-- Lexicographic order on Python `(bool, str)` sort keys
(`False < True`). -/
def keyLe (p q : Bool × PyStr) : Bool :=
  if p.1 = q.1 then strLe p.2 q.2 else !p.1

theorem keyLe_eq (b1 b2 : Bool) (s1 s2 : PyStr) :
    keyLe (b1, s1) (b2, s2) = true ↔
      ((b1 = b2 ∧ strLe s1 s2 = true) ∨ (b1 = false ∧ b2 = true)) := by
  cases b1 <;> cases b2 <;> simp [keyLe]

theorem keyLe_trans (x y z : Bool × PyStr)
    (h1 : keyLe x y = true) (h2 : keyLe y z = true) :
    keyLe x z = true := by
  obtain ⟨ba, sa⟩ := x
  obtain ⟨bb, sb⟩ := y
  obtain ⟨bc, sc⟩ := z
  rw [keyLe_eq] at h1 h2 ⊢
  rcases h1 with ⟨hb1, hs1⟩ | ⟨hb1, hb1'⟩
  · rcases h2 with ⟨hb2, hs2⟩ | ⟨hb2, hb2'⟩
    · exact Or.inl ⟨hb1.trans hb2, strLe_trans _ _ _ hs1 hs2⟩
    · exact Or.inr ⟨hb1.trans hb2, hb2'⟩
  · rcases h2 with ⟨hb2, hs2⟩ | ⟨hb2, hb2'⟩
    · exact Or.inr ⟨hb1, hb2 ▸ hb1'⟩
    · rw [hb1'] at hb2; cases hb2

theorem keyLe_total (x y : Bool × PyStr) :
    (keyLe x y || keyLe y x) = true := by
  obtain ⟨ba, sa⟩ := x
  obtain ⟨bb, sb⟩ := y
  cases ba <;> cases bb <;> simp [keyLe]
  · have h := strLe_total sa sb
    rcases Bool.or_eq_true_iff.mp h with h1 | h1
    · exact Or.inl h1
    · exact Or.inr h1
  · have h := strLe_total sa sb
    rcases Bool.or_eq_true_iff.mp h with h1 | h1
    · exact Or.inl h1
    · exact Or.inr h1

/-- The filesystem location `list_directory` operates on: the root when
the normalized path is empty, otherwise root joined with it. -/
def targetPath (manga_root : List Seg) (path : PyStr) : List Seg :=
  if normalize_path path ≠ [] then pyJoin manga_root (normalize_path path) else manga_root

/-- `FileSystemService.list_directory` from `app/services/filesystem.py`:
unsafe paths, missing targets, non-directories and unreadable directories
all degrade to an empty listing; surviving entries are filtered by
`_is_entry_supported` and sorted directories-first then case-insensitive
name.  The function never raises (its `try/except` returns `[]`), so the
error channel of the embedding is never used. -/
def list_directory (S : Settings) (fs : DFS) (manga_root : List Seg)
    (path : PyStr) : Except Unit (List Seg) :=
  if !is_safe_path fs.resolve manga_root path then .ok []
  else
    let full_path := targetPath manga_root path
    if !fs.pathExists full_path then .ok []
    else if !fs.isDir full_path then .ok []
    else
      match fs.listdir full_path with
      | .error _ => .ok []
      | .ok entries =>
        let filtered_entries :=
          entries.filter (fun e => is_entry_supported S fs (full_path ++ [e]) e)
        .ok (pySort (fun a b => keyLe (dirKey fs full_path a) (dirKey fs full_path b))
          filtered_entries)

/-- A concrete library: root `r` holding subdirectory `A`, files `b.jpg`,
`.DS_Store` and `a.zip`. -/
def fsDirDemo : DFS where
  resolve := fun l => l
  pathExists := fun _ => true
  isDir := fun l => l == [['r']] || l == [['r'], ['A']]
  isFile := fun l => l == [['r'], "b.jpg".toList] || l == [['r'], ".DS_Store".toList] ||
    l == [['r'], "a.zip".toList]
  listdir := fun _ => .ok ["b.jpg".toList, "A".toList, ".DS_Store".toList, "a.zip".toList]

/-- **C6** (confirmed): hidden names and unsupported plain files are
dropped, the survivors are sorted directories-first then case-insensitive
name; on the concrete directory `["b.jpg", "A", ".DS_Store", "a.zip"]`
(with `A` a subdirectory) the listing is `["A", "a.zip", "b.jpg"]`. -/
theorem C6_directory_listing :
    (∀ (S : Settings) (fs : DFS) (root : List Seg) (path : PyStr) (entries : List Seg),
      is_safe_path fs.resolve root path = true →
      fs.pathExists (targetPath root path) = true →
      fs.isDir (targetPath root path) = true →
      fs.listdir (targetPath root path) = .ok entries →
      ∃ l, list_directory S fs root path = .ok l ∧
        l.Perm (entries.filter
          (fun e => is_entry_supported S fs (targetPath root path ++ [e]) e)) ∧
        List.Pairwise (fun a b =>
          keyLe (dirKey fs (targetPath root path) a)
            (dirKey fs (targetPath root path) b) = true) l ∧
        (∀ e ∈ l, S.is_hidden_file e = false) ∧
        (∀ e ∈ l, fs.isDir (targetPath root path ++ [e]) = true ∨
          (fs.isFile (targetPath root path ++ [e]) = true ∧
            S.is_supported_file e = true))) ∧
    list_directory defaultSettings fsDirDemo [['r']] [] =
      .ok ["A".toList, "a.zip".toList, "b.jpg".toList] := by
  constructor
  · intro S fs root path entries hsafe hex hdir hls
    refine ⟨pySort (fun a b => keyLe (dirKey fs (targetPath root path) a)
        (dirKey fs (targetPath root path) b))
      (entries.filter (fun e => is_entry_supported S fs (targetPath root path ++ [e]) e)),
      ?_, ?_, ?_, ?_, ?_⟩
    · simp only [list_directory]
      rw [if_neg (by rw [hsafe]; simp),
        if_neg (by rw [hex]; simp), if_neg (by rw [hdir]; simp), hls]
    · exact pySort_perm _ _
    · exact pySort_pairwise
        (fun a b => keyLe (dirKey fs (targetPath root path) a)
          (dirKey fs (targetPath root path) b))
        (fun a b c h1 h2 => keyLe_trans _ _ _ h1 h2)
        (fun a b => keyLe_total _ _) _
    · intro e he
      have hmem := List.mem_filter.mp (mem_pySort _ e _ he)
      have hsupp := hmem.2
      by_cases hh : S.is_hidden_file e
      · rw [is_entry_supported, if_pos hh] at hsupp
        cases hsupp
      · rwa [Bool.not_eq_true] at hh
    · intro e he
      have hmem := List.mem_filter.mp (mem_pySort _ e _ he)
      have hsupp := hmem.2
      rw [is_entry_supported] at hsupp
      by_cases hh : S.is_hidden_file e
      · rw [if_pos hh] at hsupp; cases hsupp
      · rw [if_neg hh] at hsupp
        by_cases hd : fs.isDir (targetPath root path ++ [e])
        · exact Or.inl hd
        · rw [if_neg hd] at hsupp
          by_cases hf : fs.isFile (targetPath root path ++ [e])
          · rw [if_pos hf] at hsupp
            exact Or.inr ⟨hf, hsupp⟩
          · rw [if_neg hf] at hsupp
            cases hsupp
  · decide

/-- **C6** (witness): the general part instantiated on the concrete
directory. -/
theorem C6_witness :
    ∃ l, list_directory defaultSettings fsDirDemo [['r']] [] = .ok l ∧
      l.Perm ((["b.jpg".toList, "A".toList, ".DS_Store".toList, "a.zip".toList]).filter
        (fun e => is_entry_supported defaultSettings fsDirDemo
          (targetPath [['r']] [] ++ [e]) e)) ∧
      List.Pairwise (fun a b =>
        keyLe (dirKey fsDirDemo (targetPath [['r']] []) a)
          (dirKey fsDirDemo (targetPath [['r']] []) b) = true) l ∧
      (∀ e ∈ l, defaultSettings.is_hidden_file e = false) ∧
      (∀ e ∈ l, fsDirDemo.isDir (targetPath [['r']] [] ++ [e]) = true ∨
        (fsDirDemo.isFile (targetPath [['r']] [] ++ [e]) = true ∧
          defaultSettings.is_supported_file e = true)) :=
  C6_directory_listing.1 defaultSettings fsDirDemo [['r']] [] _ (by decide) rfl (by decide) rfl

/-- A library whose root `r` exists and is a directory, but `r/..`
resolves above the root and nothing else exists. -/
def fsC8 : DFS where
  resolve := fun l => if l == [['r'], ['.', '.']] then [] else l
  pathExists := fun l => l == [['r']]
  isDir := fun l => l == [['r']]
  isFile := fun _ => false
  listdir := fun _ => .ok []

/-- **C8** (counterexample): the catalog-layer listing does not report
errors.  The request `".."` resolves outside the sandbox yet yields an
ordinary empty listing (no AccessDenied error), and the request
`"missing"` names a nonexistent target yet also yields an ordinary empty
listing (no NotFound error). -/
theorem C8_counterexample :
    list_directory defaultSettings fsC8 [['r']] ('.' :: '.' :: []) = .ok [] ∧
    list_directory defaultSettings fsC8 [['r']] "missing".toList = .ok [] := by
  constructor
  · decide
  · decide

/-- **C8** (amended): the catalog-layer listing (`list_directory`) is
infallible — it always returns an ordinary (possibly empty) list; sandbox
violations degrade to an empty result, as do nonexistent targets and
targets that are not directories.  (`AccessDenied` / `NotFound` are
raised by the request-handler layer before this function is reached, not
by this function.) -/
theorem C8_listing_degrades (S : Settings) (fs : DFS) (root : List Seg) (path : PyStr) :
    (∃ l, list_directory S fs root path = .ok l) ∧
    (is_safe_path fs.resolve root path = false →
      list_directory S fs root path = .ok []) ∧
    (fs.pathExists (targetPath root path) = false →
      list_directory S fs root path = .ok []) ∧
    (fs.isDir (targetPath root path) = false →
      list_directory S fs root path = .ok []) := by
  refine ⟨?_, ?_, ?_, ?_⟩
  · by_cases hsafe : is_safe_path fs.resolve root path
    · by_cases hex : fs.pathExists (targetPath root path)
      · by_cases hdir : fs.isDir (targetPath root path)
        · cases hls : fs.listdir (targetPath root path) with
          | error e =>
            refine ⟨[], ?_⟩
            simp only [list_directory]
            rw [if_neg (by rw [hsafe]; simp), if_neg (by rw [hex]; simp),
              if_neg (by rw [hdir]; simp), hls]
          | ok entries =>
            refine ⟨pySort (fun a b => keyLe (dirKey fs (targetPath root path) a)
                (dirKey fs (targetPath root path) b))
              (entries.filter (fun e =>
                is_entry_supported S fs (targetPath root path ++ [e]) e)), ?_⟩
            simp only [list_directory]
            rw [if_neg (by rw [hsafe]; simp), if_neg (by rw [hex]; simp),
              if_neg (by rw [hdir]; simp), hls]
        · refine ⟨[], ?_⟩
          rw [Bool.not_eq_true] at hdir
          simp only [list_directory]
          rw [if_neg (by rw [hsafe]; simp), if_neg (by rw [hex]; simp),
            if_pos (by rw [hdir]; rfl)]
      · refine ⟨[], ?_⟩
        rw [Bool.not_eq_true] at hex
        simp only [list_directory]
        rw [if_neg (by rw [hsafe]; simp), if_pos (by rw [hex]; rfl)]
    · refine ⟨[], ?_⟩
      rw [Bool.not_eq_true] at hsafe
      simp only [list_directory]
      rw [if_pos (by rw [hsafe]; rfl)]
  · intro hsafe
    simp only [list_directory]
    rw [if_pos (by rw [hsafe]; rfl)]
  · intro hex
    by_cases hsafe : is_safe_path fs.resolve root path
    · simp only [list_directory]
      rw [if_neg (by rw [hsafe]; simp), if_pos (by rw [hex]; rfl)]
    · rw [Bool.not_eq_true] at hsafe
      simp only [list_directory]
      rw [if_pos (by rw [hsafe]; rfl)]
  · intro hdir
    by_cases hsafe : is_safe_path fs.resolve root path
    · by_cases hex : fs.pathExists (targetPath root path)
      · simp only [list_directory]
        rw [if_neg (by rw [hsafe]; simp), if_neg (by rw [hex]; simp),
          if_pos (by rw [hdir]; rfl)]
      · rw [Bool.not_eq_true] at hex
        simp only [list_directory]
        rw [if_neg (by rw [hsafe]; simp), if_pos (by rw [hex]; rfl)]
    · rw [Bool.not_eq_true] at hsafe
      simp only [list_directory]
      rw [if_pos (by rw [hsafe]; rfl)]

/-- **C8** (witness): the amended theorem applied to the concrete
filesystem of the counterexample. -/
theorem C8_witness :
    list_directory defaultSettings fsC8 [['r']] ('.' :: '.' :: []) = .ok [] ∧
    list_directory defaultSettings fsC8 [['r']] "missing".toList = .ok [] :=
  ⟨(C8_listing_degrades defaultSettings fsC8 [['r']] ('.' :: '.' :: [])).2.1 (by decide),
    (C8_listing_degrades defaultSettings fsC8 [['r']] "missing".toList).2.2.1 (by decide)⟩

/-! ### ThumbnailService.cleanup_orphaned_thumbnails (`app/services/thumbnail.py`) — C9 -/

/-- One record of the thumbnail mapping document (`mapping.json`):
original path, creation timestamp (a float, modelled as a rational) and
file size. -/
structure ThumbRecord : Type where
  original_path : PyStr
  created_at : ℚ
  file_size : Nat
deriving DecidableEq

/-- `ThumbnailService.cleanup_orphaned_thumbnails`, as a pure transcript:
given the on-disk oracles (does the original path exist; does the cached
JPEG for a hash exist) and the loaded mapping, it returns the deleted
count, the surviving mapping that is saved back, and the list of deleted
thumbnail files.  A record whose original exists is kept untouched; an
orphan record is dropped, and its JPEG deleted (and counted) only if the
file is present. -/
def cleanup_orphaned_thumbnails (origExists : PyStr → Bool) (thumbExists : String → Bool)
    (mapping : List (String × ThumbRecord)) :
    Nat × List (String × ThumbRecord) × List String :=
  mapping.foldl (fun acc entry =>
    if origExists entry.2.original_path then
      (acc.1, acc.2.1 ++ [entry], acc.2.2)
    else if thumbExists entry.1 then
      (acc.1 + 1, acc.2.1, acc.2.2 ++ [entry.1])
    else
      (acc.1, acc.2.1, acc.2.2)) (0, [], [])

theorem cleanup_fold (origExists : PyStr → Bool) (thumbExists : String → Bool) :
    ∀ (m : List (String × ThumbRecord)) (acc : Nat × List (String × ThumbRecord) × List String),
      m.foldl (fun acc entry =>
        if origExists entry.2.original_path then
          (acc.1, acc.2.1 ++ [entry], acc.2.2)
        else if thumbExists entry.1 then
          (acc.1 + 1, acc.2.1, acc.2.2 ++ [entry.1])
        else
          (acc.1, acc.2.1, acc.2.2)) acc =
      (acc.1 + (m.filter (fun e => !origExists e.2.original_path && thumbExists e.1)).length,
       acc.2.1 ++ m.filter (fun e => origExists e.2.original_path),
       acc.2.2 ++ (m.filter (fun e => !origExists e.2.original_path && thumbExists e.1)).map
         Prod.fst)
  | [], acc => by simp
  | e :: m, acc => by
    rw [List.foldl_cons]
    by_cases horig : origExists e.2.original_path
    · rw [if_pos horig, cleanup_fold origExists thumbExists m]
      simp [horig, List.filter_cons]
    · rw [if_neg horig]
      rw [Bool.not_eq_true] at horig
      by_cases hth : thumbExists e.1
      · rw [if_pos hth, cleanup_fold origExists thumbExists m]
        simp [horig, hth, List.filter_cons]
        omega
      · rw [if_neg hth, cleanup_fold origExists thumbExists m]
        rw [Bool.not_eq_true] at hth
        simp [horig, hth, List.filter_cons]

/-- **C9** (confirmed): the cleanup drops exactly the records whose
original no longer exists (keeping every surviving record untouched, in
order), deletes exactly the cached JPEGs of those orphan records that are
present on disk, and returns their number; in the `[A, B]` scenario with
`A` deleted from disk it returns 1, deletes `A`'s thumbnail and record,
and leaves `B`'s untouched. -/
theorem C9_cleanup_orphans :
    (∀ (origExists : PyStr → Bool) (thumbExists : String → Bool)
       (mapping : List (String × ThumbRecord)),
      (cleanup_orphaned_thumbnails origExists thumbExists mapping).2.1 =
        mapping.filter (fun e => origExists e.2.original_path) ∧
      (cleanup_orphaned_thumbnails origExists thumbExists mapping).2.2 =
        (mapping.filter (fun e => !origExists e.2.original_path && thumbExists e.1)).map
          Prod.fst ∧
      (cleanup_orphaned_thumbnails origExists thumbExists mapping).1 =
        (mapping.filter (fun e => !origExists e.2.original_path && thumbExists e.1)).length) ∧
    cleanup_orphaned_thumbnails
      (fun pth => pth == "B".toList) (fun _ => true)
      [("ha", ⟨"A".toList, 0, 10⟩), ("hb", ⟨"B".toList, 0, 20⟩)] =
      (1, [("hb", ⟨"B".toList, 0, 20⟩)], ["ha"]) := by
  constructor
  · intro origExists thumbExists mapping
    rw [cleanup_orphaned_thumbnails, cleanup_fold origExists thumbExists mapping (0, [], [])]
    exact ⟨by simp, by simp, by simp⟩
  · decide
